import Mathlib

/-!
# Verification of the proptest-state-machine sequential strategy

A shallow embedding of `proptest-state-machine/src/strategy.rs`: the
`Sequential` strategy's `new_tree` generation loop and the
`SequentialValueTree`'s `current` / `simplify` / `complicate` operations,
together with proofs about generation, shrinking and complication.

Atomic value trees (the host framework's per-value shrinkers) are modelled
abstractly: a tree is a value of some state type together with operation
functions `current`, `simplify`, `complicate`; the Rust methods mutate the
tree and return a progress `Bool`, which we model as state-passing functions
returning `Bool × state`.

The recursive `try_simplify`/`simplify` pair of the source is modelled with
an explicit fuel parameter returning `Option`; `none` means the fuel ran
out.  A termination theorem below computes a fuel bound `muTotal` under the
representation invariant and shows the fuel never runs out, so the fuelled
functions are a faithful total rendering of the source's recursion.

`usize` subtraction in `new_tree` (`max_size - 1`) is modelled with the
release-mode wrap-around semantics, explicitly as `% 2^64`.
-/

namespace PropTestSM

/-- Word size of the Rust `usize` arithmetic in `new_tree` (2^64). -/
def USIZE : Nat := 18446744073709551616

theorem USIZE_eq : USIZE = 2 ^ 64 := by norm_num [USIZE]

/-- `enum Shrink` from strategy.rs: a shrinking operation. -/
inductive Shrink where
  /-- Shrink the initial state -/
  | InitialState : Shrink
  /-- Delete a transition at given index -/
  | DeleteTransition : Nat → Shrink
  /-- Shrink a transition at given index -/
  | Transition : Nat → Shrink
deriving DecidableEq, Repr

/-- `enum TransitionState` from strategy.rs: the state of a transition in the
model. -/
inductive TransitionState where
  /-- Equal to the result of the tree's `current()` and satisfies the
  pre-conditions -/
  | Accepted : TransitionState
  /-- Simplified, but rejected by pre-conditions -/
  | SimplifyRejected : TransitionState
  /-- Complicated, but rejected by pre-conditions -/
  | ComplicateRejected : TransitionState
deriving DecidableEq, Repr

/-- The operations of the two atomic value-tree types (`StateValueTree` with
value type `State`, and `TransitionValueTree` with value type `Transition`),
as consumed by the sequential value tree.  `σt`/`τt` are the (mutable) state
types of the two kinds of atomic trees. -/
structure Ops (State Transition σt τt : Type) where
  sCurrent : σt → State
  sSimplify : σt → Bool × σt
  sComplicate : σt → Bool × σt
  tCurrent : τt → Transition
  tSimplify : τt → Bool × τt
  tComplicate : τt → Bool × τt

/-- `struct SequentialValueTree` from strategy.rs.  The two `VarBitSet`
fields are modelled as `List Bool` (a dense bit vector; `test` is `getD`
with default `false`, `set`/`clear` are `List.set`, `count` is
`List.count true`). -/
structure SVT (State Transition σt τt : Type) where
  /-- The initial state value tree -/
  initial_state : σt
  /-- Can the `initial_state` be shrunk any further? -/
  is_initial_state_shrinkable : Bool
  /-- The last initial state that has been accepted by the pre-conditions -/
  last_valid_initial_state : State
  /-- The pre-conditions predicate -/
  preconditions : State → Transition → Bool
  /-- The function from current state and a transition to an updated state -/
  next : State → Transition → State
  /-- The list of transitions' value trees -/
  transitions : List τt
  /-- The sequence of included transitions with their shrinking state -/
  acceptable_transitions : List (TransitionState × Transition)
  /-- The bit-set of transitions that have not been deleted by shrinking -/
  included_transitions : List Bool
  /-- The bit-set of transitions that can be shrunk further -/
  shrinkable_transitions : List Bool
  /-- The maximum index in the `transitions` vector (its size - 1) -/
  max_ix : Nat
  /-- The next shrink operation to apply -/
  shrink : Shrink
  /-- The last applied shrink operation, if any -/
  last_shrink : Option Shrink

variable {State Transition σt τt : Type}

/-- The loop body of `get_included_acceptable_transitions`: the source's
`.iter().enumerate().filter(|(i, _)| included.test(i)).map(...)` rendered as
a recursion carrying the running enumeration index `i`.  When `ix = some j`,
the element at absolute index `j` is taken from `transitions[j].current()`
(out-of-range indexing, which panics in Rust and is unreachable, yields
`default`). -/
def giatGo [Inhabited τt] (ops : Ops State Transition σt τt)
    (transitions : List τt) (included : List Bool) (ix : Option Nat) :
    Nat → List (TransitionState × Transition) → List Transition
  | _, [] => []
  | i, p :: rest =>
    let tail := giatGo ops transitions included ix (i + 1) rest
    if included.getD i false then
      (match ix with
       | some j => if i = j then ops.tCurrent (transitions.getD j default) else p.2
       | none => p.2) :: tail
    else
      tail

/-- `SequentialValueTree::get_included_acceptable_transitions`. -/
def get_included_acceptable_transitions [Inhabited τt]
    (ops : Ops State Transition σt τt) (svt : SVT State Transition σt τt)
    (ix : Option Nat) : List Transition :=
  giatGo ops svt.transitions svt.included_transitions ix 0 svt.acceptable_transitions

/-- The replay loop of `SequentialValueTree::check_acceptable`: walk the
candidate sequence from `state`, checking `preconditions` and advancing by
`next`; short-circuit `false` on the first failing pre-condition. -/
def replayOk (pre : State → Transition → Bool) (nxt : State → Transition → State) :
    State → List Transition → Bool
  | _, [] => true
  | s, t :: ts => if pre s t then replayOk pre nxt (nxt s t) ts else false

/-- `SequentialValueTree::check_acceptable`.  Note: the walk starts from
`last_valid_initial_state` (the source clones this field), never from the
current value of the initial-state tree. -/
def check_acceptable [Inhabited τt] (ops : Ops State Transition σt τt)
    (svt : SVT State Transition σt τt) (ix : Option Nat) : Bool :=
  replayOk svt.preconditions svt.next svt.last_valid_initial_state
    (get_included_acceptable_transitions ops svt ix)

/-- Does a `TransitionState` match `SimplifyRejected | ComplicateRejected`? -/
def isRejected : TransitionState → Bool
  | .SimplifyRejected => true
  | .ComplicateRejected => true
  | .Accepted => false

/-- The `.iter().enumerate().filter(included).all(matches Rejected)` loop of
`can_simplify`, rendered as a recursion carrying the enumeration index. -/
def allIncludedRejected (included : List Bool) :
    Nat → List (TransitionState × Transition) → Bool
  | _, [] => true
  | i, p :: rest =>
    (!(included.getD i false) || isRejected p.1) && allIncludedRejected included (i + 1) rest

/-- `SequentialValueTree::can_simplify`. -/
def can_simplify (svt : SVT State Transition σt τt) : Bool :=
  svt.is_initial_state_shrinkable ||
    !(allIncludedRejected svt.included_transitions 0 svt.acceptable_transitions)

/-- `SequentialValueTree::next_shrink_transition`: loop back to the front of
the list when the end is reached. -/
def next_shrink_transition (svt : SVT State Transition σt τt) (current_ix : Nat) : Shrink :=
  if current_ix = svt.max_ix then .Transition 0 else .Transition (current_ix + 1)

/-- Store `(Accepted, transitions[ix].current())` into
`acceptable_transitions[ix]`. -/
def setAcceptedAt [Inhabited τt] (ops : Ops State Transition σt τt)
    (svt : SVT State Transition σt τt) (ix : Nat) : SVT State Transition σt τt :=
  { svt with
    acceptable_transitions :=
      svt.acceptable_transitions.set ix
        (.Accepted, ops.tCurrent (svt.transitions.getD ix default)) }

/-- Overwrite only the status of `acceptable_transitions[ix]` (the source's
`get_mut(ix).unwrap()` followed by `*state = ...`; out of range is
unreachable and modelled as the identity). -/
def setStatusAt (svt : SVT State Transition σt τt) (ix : Nat)
    (st : TransitionState) : SVT State Transition σt τt :=
  match svt.acceptable_transitions[ix]? with
  | some p => { svt with acceptable_transitions := svt.acceptable_transitions.set ix (st, p.2) }
  | none => svt

/-- The loop of `try_to_find_acceptable_transition`, with an explicit fuel;
the loop wraps around at `max_ix` and stops when it is back at `start_ix`,
so fuel `max_ix + 2` is always enough. -/
def findAcceptableGo [Inhabited τt] (ops : Ops State Transition σt τt)
    (svt : SVT State Transition σt τt) (start_ix : Nat) :
    Nat → Nat → Bool × SVT State Transition σt τt
  | 0, _ => (false, svt)
  | fuel + 1, ix_to_check =>
    if svt.included_transitions.getD ix_to_check false &&
        check_acceptable ops svt (some ix_to_check) then
      (true, setAcceptedAt ops svt ix_to_check)
    else
      let nxt := if ix_to_check = svt.max_ix then 0 else ix_to_check + 1
      if nxt = start_ix then (false, svt)
      else findAcceptableGo ops svt start_ix fuel nxt

/-- `SequentialValueTree::try_to_find_acceptable_transition`. -/
def try_to_find_acceptable_transition [Inhabited τt] (ops : Ops State Transition σt τt)
    (svt : SVT State Transition σt τt) (ix : Nat) : Bool × SVT State Transition σt τt :=
  findAcceptableGo ops svt ix (svt.max_ix + 2) ix

/-- The state after the destructive half of a Delete step at `ix`: clear the
included bit, record `last_shrink`, advance the plan. -/
def deleteApplied (svt : SVT State Transition σt τt) (ix : Nat) :
    SVT State Transition σt τt :=
  { svt with
    included_transitions := svt.included_transitions.set ix false
    last_shrink := some svt.shrink
    shrink := if ix = 0 then .Transition 0 else .DeleteTransition (ix - 1) }

/-- Undo a rejected Delete step at `ix`: restore the included bit and clear
`last_shrink` (the `shrink` plan stays advanced). -/
def deleteRestored (svt : SVT State Transition σt τt) (ix : Nat) :
    SVT State Transition σt τt :=
  { svt with
    included_transitions := svt.included_transitions.set ix true
    last_shrink := none }

/-- The state after `self.transitions[ix].complicate()` has run in the
`Transition` arm of `complicate`: the atomic tree at `ix` is replaced by its
post-complication state. -/
def complicateApplied [Inhabited τt] (ops : Ops State Transition σt τt)
    (svt : SVT State Transition σt τt) (ix : Nat) : SVT State Transition σt τt :=
  { svt with
    transitions :=
      svt.transitions.set ix (ops.tComplicate (svt.transitions.getD ix default)).2 }

mutual

/-- `SequentialValueTree::try_simplify`, with fuel.  The source's `while let
Transition(ix) = self.shrink` loop is rendered by re-entering
`try_simplifyF` (the Delete branch is skipped on re-entry because `shrink`
is no longer a `DeleteTransition`, and falling out of the loop with `shrink
= InitialState` re-enters straight into the InitialState block, exactly as
the source falls through). -/
def try_simplifyF [Inhabited τt] (ops : Ops State Transition σt τt) :
    Nat → SVT State Transition σt τt → Option (Bool × SVT State Transition σt τt)
  | 0, _ => none
  | fuel + 1, svt =>
    match svt.shrink with
    | .DeleteTransition ix =>
      -- Delete the index from the included transitions
      let svt1 := deleteApplied svt ix
      if !(check_acceptable ops svt1 none) then
        -- If this delete is not acceptable, undo it and try again
        try_simplifyF ops fuel (deleteRestored svt1 ix)
      else
        -- If the delete was accepted, remove this index from shrinkable
        some (true, { svt1 with
          shrinkable_transitions := svt1.shrinkable_transitions.set ix false })
    | .Transition ix =>
      if svt.shrinkable_transitions.count true = 0 then
        -- Move on to shrinking the initial state
        try_simplifyF ops fuel { svt with shrink := .InitialState }
      else if !(svt.included_transitions.getD ix false) then
        -- No use shrinking something we're not including
        try_simplifyF ops fuel { svt with shrink := next_shrink_transition svt ix }
      else if (match svt.acceptable_transitions[ix]? with
               | some (.SimplifyRejected, _) => true
               | _ => false) then
        -- This transition is already simplified and rejected
        try_simplifyF ops fuel { svt with shrink := next_shrink_transition svt ix }
      else
        let tr := svt.transitions.getD ix default
        let res := ops.tSimplify tr
        let svt1 := { svt with transitions := svt.transitions.set ix res.2 }
        if res.1 then
          let svt2 := { svt1 with last_shrink := some svt1.shrink }
          if check_acceptable ops svt2 (some ix) then
            some (true, setAcceptedAt ops svt2 ix)
          else
            let svt3 := setStatusAt svt2 ix .SimplifyRejected
            let svt4 := { svt3 with
              shrinkable_transitions := svt3.shrinkable_transitions.set ix false
              shrink := next_shrink_transition svt3 ix }
            simplifyF ops fuel svt4
        else
          try_simplifyF ops fuel { svt1 with
            shrinkable_transitions := svt1.shrinkable_transitions.set ix false
            shrink := next_shrink_transition svt1 ix }
    | .InitialState =>
      let res := ops.sSimplify svt.initial_state
      let svt1 := { svt with initial_state := res.2 }
      if res.1 then
        if check_acceptable ops svt1 none then
          -- Store the valid initial state
          some (true, { svt1 with last_valid_initial_state := ops.sCurrent res.2 })
        else
          -- If the shrink is not acceptable, clear it out
          some (false, { svt1 with
            last_shrink := none
            is_initial_state_shrinkable := false })
      else
        -- Nothing left to do
        some (false, { svt1 with is_initial_state_shrinkable := false })

/-- `<SequentialValueTree as ValueTree>::simplify`, with fuel. -/
def simplifyF [Inhabited τt] (ops : Ops State Transition σt τt) :
    Nat → SVT State Transition σt τt → Option (Bool × SVT State Transition σt τt)
  | 0, _ => none
  | fuel + 1, svt =>
    if can_simplify svt then
      try_simplifyF ops fuel svt
    else
      match svt.last_shrink with
      | some (.Transition ix) => some (try_to_find_acceptable_transition ops svt ix)
      | _ => some (false, svt)

end

/-- `<SequentialValueTree as ValueTree>::current`. -/
def current [Inhabited τt] (ops : Ops State Transition σt τt)
    (svt : SVT State Transition σt τt) : State × List Transition :=
  (svt.last_valid_initial_state, get_included_acceptable_transitions ops svt none)

/-- `<SequentialValueTree as ValueTree>::complicate`.  Non-recursive;
out-of-range vector indexing (a Rust `unwrap`/index failure, unreachable
under the representation invariant) is modelled by returning the state
unchanged. -/
def complicate [Inhabited τt] (ops : Ops State Transition σt τt)
    (svt : SVT State Transition σt τt) : Bool × SVT State Transition σt τt :=
  match svt.last_shrink with
  | none => (false, svt)
  | some (.DeleteTransition ix) =>
    -- Undo the last item we deleted
    (true, { svt with
      included_transitions := svt.included_transitions.set ix true
      shrinkable_transitions := svt.shrinkable_transitions.set ix true
      last_shrink := none })
  | some (.Transition ix) =>
    let tr := svt.transitions.getD ix default
    let res := ops.tComplicate tr
    let svt1 := { svt with transitions := svt.transitions.set ix res.2 }
    if res.1 then
      if check_acceptable ops svt1 (some ix) then
        -- Don't unset last_shrink; we may be able to complicate it again
        (true, setAcceptedAt ops svt1 ix)
      else
        let svt2 := setStatusAt svt1 ix .ComplicateRejected
        (false, { svt2 with last_shrink := none })
    else
      (false, { svt1 with last_shrink := none })
  | some .InitialState =>
    let svt0 := { svt with last_shrink := none }
    let res := ops.sComplicate svt0.initial_state
    let svt1 := { svt0 with initial_state := res.2 }
    if res.1 && check_acceptable ops svt1 none then
      (true, { svt1 with last_valid_initial_state := ops.sCurrent res.2 })
    else
      (false, { svt1 with last_shrink := none })

/-- The randomness and strategy results consumed by one `new_tree` call:
the initial-state tree drawn from `init_state()`, the result of
`sample_uniform_incl(runner, min, max)`, the transition tree produced by the
`k`-th call of `transitions(&state).new_tree(runner)`, and the runner's
remaining local-rejection budget (`reject_local` fails once it is spent). -/
structure GenOracle (State σt τt : Type) where
  initTree : σt
  sampleSize : Nat
  draw : Nat → State → τt
  rejectBudget : Nat

/-- The transition-sampling loop of `Sequential::new_tree`, split into its
rejection loop and its append loop.  `drawAccepted` keeps drawing transition
trees for the current `state` (at draw counter `k`) until one passes the
pre-conditions, spending one unit of the runner's local-rejection `budget`
per failure (`reject_local`); it returns the remaining budget, the new draw
counter and the accepted tree, or `none` when the budget is exhausted (the
runner aborts `new_tree`). -/
def drawAccepted (ops : Ops State Transition σt τt)
    (pre : State → Transition → Bool) (draw : Nat → State → τt) :
    Nat → Nat → State → Option (Nat × Nat × τt)
  | budget, k, state =>
    let tree := draw k state
    if pre state (ops.tCurrent tree) then
      some (budget, k + 1, tree)
    else
      match budget with
      | 0 => none
      | b + 1 => drawAccepted ops pre draw b (k + 1) state

/-- The outer loop: append `remaining` more accepted transitions. -/
def genLoop (ops : Ops State Transition σt τt)
    (pre : State → Transition → Bool) (nxt : State → Transition → State)
    (draw : Nat → State → τt) :
    Nat → Nat → Nat → State → List τt → List (TransitionState × Transition) →
    Option (List τt × List (TransitionState × Transition))
  | 0, _, _, _, trs, acc => some (trs, acc)
  | r + 1, budget, k, state, trs, acc =>
    match drawAccepted ops pre draw budget k state with
    | none => none
    | some (b, k2, tree) =>
      let t := ops.tCurrent tree
      genLoop ops pre nxt draw r b k2 (nxt state t)
        (trs ++ [tree]) (acc ++ [(.Accepted, t)])

/-- `Sequential::new_tree`.  The sampled size is `oracle.sampleSize` (the
host guarantees it lies in the inclusive size range).  `max_ix` is computed
as the Rust `usize` subtraction `max_size - 1`, i.e. with wrap-around at
`2^64` (in a debug build this subtraction aborts when `max_size = 0`). -/
def new_tree (ops : Ops State Transition σt τt)
    (pre : State → Transition → Bool) (nxt : State → Transition → State)
    (oracle : GenOracle State σt τt) : Option (SVT State Transition σt τt) :=
  let initial_state := oracle.initTree
  let last_valid_initial_state := ops.sCurrent initial_state
  let max_size := oracle.sampleSize
  match genLoop ops pre nxt oracle.draw max_size oracle.rejectBudget 0
      last_valid_initial_state [] [] with
  | none => none
  | some (trs, acc) =>
    let max_ix := (max_size + (USIZE - 1)) % USIZE
    some
      { initial_state := initial_state
        is_initial_state_shrinkable := true
        last_valid_initial_state := last_valid_initial_state
        preconditions := pre
        next := nxt
        transitions := trs
        acceptable_transitions := acc
        included_transitions := List.replicate max_size true
        shrinkable_transitions := List.replicate max_size true
        max_ix := max_ix
        shrink := .DeleteTransition max_ix
        last_shrink := none }

/-! ## A small concrete reference model used for evaluations and witnesses

`State = Nat`, `Transition = Nat` where transition `1` ("inc") requires
`1 ≤ s` and maps `s` to `s + 1`, while transition `2` ("check") requires
`s = 2` and leaves the state unchanged.  The initial-state tree is a `Nat`
that simplifies `n → n - 1` while positive; transition trees are constant. -/

/-- Atomic-tree operations of the concrete model. -/
def natOps : Ops Nat Nat Nat Nat :=
  { sCurrent := id
    sSimplify := fun n => (decide (0 < n), n - 1)
    sComplicate := fun n => (false, n)
    tCurrent := id
    tSimplify := fun t => (false, t)
    tComplicate := fun t => (false, t) }

/-- Pre-conditions of the concrete model. -/
def natPre : Nat → Nat → Bool := fun s t =>
  if t = 1 then decide (1 ≤ s) else decide (s = 2)

/-- State-update function of the concrete model. -/
def natNxt : Nat → Nat → Nat := fun s t => if t = 1 then s + 1 else s

/-- Oracle generating initial state `1` and the two transitions `[1, 2]`. -/
def c1oracle : GenOracle Nat Nat Nat :=
  { initTree := 1, sampleSize := 2, draw := fun k _ => if k = 0 then 1 else 2
    rejectBudget := 0 }

/-- The public call sequence `new_tree; simplify; complicate; simplify` on
the concrete model. -/
def c1run : Option (Bool × SVT Nat Nat Nat Nat) :=
  (new_tree natOps natPre natNxt c1oracle).bind fun s0 =>
  (simplifyF natOps 30 s0).bind fun p1 =>
  (some (complicate natOps p1.2)).bind fun p2 =>
  simplifyF natOps 30 p2.2

/-- A value tree of the concrete model that has reached the InitialState
shrink phase with both transitions still included (exactly the state `c1run`
reaches just before its last `simplify` enters the InitialState block). -/
def c3svt : SVT Nat Nat Nat Nat :=
  { initial_state := 1
    is_initial_state_shrinkable := true
    last_valid_initial_state := 1
    preconditions := natPre
    next := natNxt
    transitions := [1, 2]
    acceptable_transitions := [(.Accepted, 1), (.Accepted, 2)]
    included_transitions := [true, true]
    shrinkable_transitions := [false, false]
    max_ix := 1
    shrink := .InitialState
    last_shrink := none }

/-- Oracle whose sampled sequence length is `0` (possible whenever the size
range contains `0`). -/
def c4oracle : GenOracle Nat Nat Nat :=
  { initTree := 0, sampleSize := 0, draw := fun _ _ => 0, rejectBudget := 0 }

/-- A value tree of the concrete model as produced by `new_tree` from
`c1oracle`: both transitions included and shrinkable, plan
`DeleteTransition 1`. -/
def delsvt : SVT Nat Nat Nat Nat :=
  { initial_state := 1
    is_initial_state_shrinkable := true
    last_valid_initial_state := 1
    preconditions := natPre
    next := natNxt
    transitions := [1, 2]
    acceptable_transitions := [(.Accepted, 1), (.Accepted, 2)]
    included_transitions := [true, true]
    shrinkable_transitions := [true, true]
    max_ix := 1
    shrink := .DeleteTransition 1
    last_shrink := none }

/-- A value tree of the concrete model whose last shrink was
`Transition 0` (a per-transition simplification of slot 0). -/
def c7svt : SVT Nat Nat Nat Nat :=
  { delsvt with shrink := .Transition 0, last_shrink := some (.Transition 0) }

/-! ## Representation invariant, measures, runs and reachability -/

/-- The phase rank of a shrink plan: Delete < Transition < InitialState. -/
def rankOf : Shrink → Nat
  | .DeleteTransition _ => 0
  | .Transition _ => 1
  | .InitialState => 2

/-- The status component of `acceptable_transitions[i]`. -/
def statusAt (svt : SVT State Transition σt τt) (i : Nat) : Option TransitionState :=
  (svt.acceptable_transitions[i]?).map Prod.fst

/-- Does a `TransitionState` match `SimplifyRejected`? -/
def isSimpRej : TransitionState → Bool
  | .SimplifyRejected => true
  | _ => false

/-- Index bounds carried by the shrink plan: planned indices stay within
`max_ix`, and in the Delete phase every index up to the planned one is
still included (the Delete scan has not reached them yet). -/
def shrinkIxOkAux (svt : SVT State Transition σt τt) : Shrink → Prop
  | .DeleteTransition ix =>
    ix ≤ svt.max_ix ∧ ∀ j, j ≤ ix → svt.included_transitions.getD j false = true
  | .Transition ix => ix ≤ svt.max_ix
  | .InitialState => True

instance (svt : SVT State Transition σt τt) :
    ∀ s, Decidable (shrinkIxOkAux svt s)
  | .DeleteTransition _ => inferInstanceAs (Decidable (_ ∧ _))
  | .Transition _ => inferInstanceAs (Decidable (_ ≤ _))
  | .InitialState => inferInstanceAs (Decidable True)

/-- Index bounds carried by the shrink plan (applied to the current plan). -/
def shrinkIxOk (svt : SVT State Transition σt τt) : Prop :=
  shrinkIxOkAux svt svt.shrink

instance (svt : SVT State Transition σt τt) : Decidable (shrinkIxOk svt) :=
  inferInstanceAs (Decidable (shrinkIxOkAux svt svt.shrink))

/-- The representation invariant of `SequentialValueTree`: the four vectors
have length `max_ix + 1`, the shrink plan is in bounds, only included slots
are shrinkable, and a `SimplifyRejected` slot is never shrinkable. -/
def INV (svt : SVT State Transition σt τt) : Prop :=
  svt.transitions.length = svt.max_ix + 1 ∧
  svt.acceptable_transitions.length = svt.max_ix + 1 ∧
  svt.included_transitions.length = svt.max_ix + 1 ∧
  svt.shrinkable_transitions.length = svt.max_ix + 1 ∧
  shrinkIxOk svt ∧
  (∀ i, i < svt.max_ix + 1 → svt.shrinkable_transitions.getD i false = true →
    svt.included_transitions.getD i false = true) ∧
  (∀ i, i < svt.max_ix + 1 → statusAt svt i = some .SimplifyRejected →
    svt.shrinkable_transitions.getD i false = false)

instance (svt : SVT State Transition σt τt) : Decidable (INV svt) := by
  unfold INV
  exact inferInstance

/-- Sum of a per-index weight over a list, carrying the running enumeration
index. -/
def idxSum (f : Nat → TransitionState × Transition → Nat) :
    Nat → List (TransitionState × Transition) → Nat
  | _, [] => 0
  | i, p :: rest => f i p + idxSum f (i + 1) rest

/-- Number of included slots whose status is not `SimplifyRejected`
(slots the Simplify phase may still visit productively). -/
def srCount (included : List Bool)
    (acc : List (TransitionState × Transition)) : Nat :=
  idxSum (fun i p => if included.getD i false && !(isSimpRej p.1) then 1 else 0) 0 acc

/-- Number of included slots whose status is rejected. -/
def rejCount (included : List Bool)
    (acc : List (TransitionState × Transition)) : Nat :=
  idxSum (fun i p => if included.getD i false && isRejected p.1 then 1 else 0) 0 acc

/-- The cyclic successor used by the Simplify-phase scan. -/
def wrapNext (maxIx ix : Nat) : Nat := if ix = maxIx then 0 else ix + 1

/-- Fuelled cyclic distance from `ix` to the next set bit of `shr`. -/
def distToShrinkable (shr : List Bool) (maxIx : Nat) : Nat → Nat → Nat
  | 0, _ => 0
  | fuel + 1, ix =>
    if shr.getD ix false then 0
    else 1 + distToShrinkable shr maxIx fuel (wrapNext maxIx ix)

/-- Fuel measure for the Simplify-phase loop at position `ix`. -/
def muLoop (svt : SVT State Transition σt τt) (ix : Nat) : Nat :=
  2 * ((svt.shrinkable_transitions.count true
        + srCount svt.included_transitions svt.acceptable_transitions)
      * (svt.max_ix + 3)
    + distToShrinkable svt.shrinkable_transitions svt.max_ix (svt.max_ix + 2) ix) + 4

/-- Fuel measure for a whole `try_simplify`/`simplify` call: strictly
decreases across every internal recursive re-entry, so `muTotal svt + 2`
fuel always suffices (the termination theorem below). -/
def muTotal (svt : SVT State Transition σt τt) : Nat :=
  match svt.shrink with
  | .DeleteTransition ix =>
    2 * ix + 4 + (2 * ((svt.shrinkable_transitions.count true
        + srCount svt.included_transitions svt.acceptable_transitions)
      * (svt.max_ix + 3) + (svt.max_ix + 2)) + 4)
  | .Transition ix => muLoop svt ix
  | .InitialState => 2

/-- Rank assumptions on the atomic trees: `simplify` never increases the
rank and strictly decreases it whenever it reports progress.  This captures
"each atomic tree's simplify can report progress only finitely often". -/
structure RankedOps (ops : Ops State Transition σt τt)
    (srank : σt → Nat) (trank : τt → Nat) : Prop where
  sSimp_le : ∀ t, srank (ops.sSimplify t).2 ≤ srank t
  sSimp_lt : ∀ t, (ops.sSimplify t).1 = true → srank (ops.sSimplify t).2 < srank t
  tSimp_le : ∀ t, trank (ops.tSimplify t).2 ≤ trank t
  tSimp_lt : ∀ t, (ops.tSimplify t).1 = true → trank (ops.tSimplify t).2 < trank t

/-- Global shrink progress measure: strictly decreases on every `simplify()`
call that returns `true` and never increases, bounding the total number of
successful shrinks. -/
def Mtot (srank : σt → Nat) (trank : τt → Nat)
    (svt : SVT State Transition σt τt) : Nat :=
  svt.included_transitions.count true + srank svt.initial_state +
    2 * (svt.transitions.map trank).sum +
    rejCount svt.included_transitions svt.acceptable_transitions

/-- Some slot newly carries an `(Accepted, w)` entry: the observable
signature of a successful per-transition simplification (or of a recovery
probe success). -/
def accNewlyAccepted (svt svt' : SVT State Transition σt τt) : Prop :=
  ∃ (ix : Nat) (w : Transition),
    svt'.acceptable_transitions[ix]? = some (TransitionState.Accepted, w) ∧
    svt.acceptable_transitions[ix]? ≠ some (TransitionState.Accepted, w)

/-- One public `simplify()` call with always-sufficient fuel (the
termination theorem shows the fallback is never taken on states satisfying
`INV`). -/
def stepF [Inhabited τt] (ops : Ops State Transition σt τt)
    (svt : SVT State Transition σt τt) : Bool × SVT State Transition σt τt :=
  (simplifyF ops (muTotal svt + 2) svt).getD (false, svt)

/-- The state after `n` public `simplify()` calls. -/
def runState [Inhabited τt] (ops : Ops State Transition σt τt)
    (svt : SVT State Transition σt τt) : Nat → SVT State Transition σt τt
  | 0 => svt
  | n + 1 => (stepF ops (runState ops svt n)).2

/-- The result of the `n`-th public `simplify()` call (0-based). -/
def runBool [Inhabited τt] (ops : Ops State Transition σt τt)
    (svt : SVT State Transition σt τt) (n : Nat) : Bool :=
  (stepF ops (runState ops svt n)).1

/-- States reachable from `s₀` through the public `simplify`/`complicate`
interface (at any fuel at which the call completes). -/
inductive Reachable [Inhabited τt] (ops : Ops State Transition σt τt)
    (s₀ : SVT State Transition σt τt) : SVT State Transition σt τt → Prop where
  | refl : Reachable ops s₀ s₀
  | simplify_step {s s' : SVT State Transition σt τt} {b : Bool} (fuel : Nat) :
      Reachable ops s₀ s → simplifyF ops fuel s = some (b, s') →
      Reachable ops s₀ s'
  | complicate_step {s : SVT State Transition σt τt} :
      Reachable ops s₀ s → Reachable ops s₀ (complicate ops s).2

/-- The per-call facts established for every completed `try_simplify` or
`simplify` call on a state satisfying `INV`: invariant preservation, phase
monotonicity, classification of the observable change (which phase a call
that deleted a slot, updated an accepted transition, or replaced the
initial state was in), monotonicity of the initial-shrinkability bit, and
the global measure decrease. -/
structure StepFacts (ops : Ops State Transition σt τt)
    (svt svt' : SVT State Transition σt τt) (b : Bool) : Prop where
  inv : INV svt'
  rank_mono : rankOf svt.shrink ≤ rankOf svt'.shrink
  lvis_change : svt'.last_valid_initial_state ≠ svt.last_valid_initial_state →
    svt'.shrink = .InitialState
  lvis_nacc : svt'.last_valid_initial_state ≠ svt.last_valid_initial_state →
    ¬ accNewlyAccepted svt svt'
  incl_change : svt'.included_transitions ≠ svt.included_transitions →
    rankOf svt.shrink = 0 ∧
    svt'.acceptable_transitions = svt.acceptable_transitions ∧
    svt'.last_valid_initial_state = svt.last_valid_initial_state
  acc_entry : accNewlyAccepted svt svt' →
    rankOf svt.shrink ≤ 1 ∨ can_simplify svt = false
  acc_post : accNewlyAccepted svt svt' →
    1 ≤ rankOf svt'.shrink ∨ (can_simplify svt = false ∧ svt'.shrink = svt.shrink)
  init_mono : svt'.is_initial_state_shrinkable = true →
    svt.is_initial_state_shrinkable = true
  m_dec : ∀ (srank : σt → Nat) (trank : τt → Nat), RankedOps ops srank trank →
    Mtot srank trank svt' ≤ Mtot srank trank svt ∧
    (b = true → Mtot srank trank svt' < Mtot srank trank svt)

/-- The `j`-th public `simplify()` call deleted a slot: the included
bit-set changed. -/
def DelStep [Inhabited τt] (ops : Ops State Transition σt τt)
    (s₀ : SVT State Transition σt τt) (j : Nat) : Prop :=
  runBool ops s₀ j = true ∧
  (runState ops s₀ (j + 1)).included_transitions
    ≠ (runState ops s₀ j).included_transitions

/-- The `j`-th public `simplify()` call performed a per-transition
simplification through the phase machine: it stored a new accepted slot
value while the phase machine still had work (`can_simplify`). -/
def SimpStep [Inhabited τt] (ops : Ops State Transition σt τt)
    (s₀ : SVT State Transition σt τt) (j : Nat) : Prop :=
  runBool ops s₀ j = true ∧
  can_simplify (runState ops s₀ j) = true ∧
  accNewlyAccepted (runState ops s₀ j) (runState ops s₀ (j + 1))

/-- The `j`-th public `simplify()` call replaced the last valid initial
state: a successful InitialState shrink. -/
def InitStep [Inhabited τt] (ops : Ops State Transition σt τt)
    (s₀ : SVT State Transition σt τt) (j : Nat) : Prop :=
  runBool ops s₀ j = true ∧
  (runState ops s₀ (j + 1)).last_valid_initial_state
    ≠ (runState ops s₀ j).last_valid_initial_state

/-- The `j`-th public `simplify()` call succeeded through the recovery
probe (`try_to_find_acceptable_transition`): the phase machine had nothing
left to try. -/
def ProbeStep [Inhabited τt] (ops : Ops State Transition σt τt)
    (s₀ : SVT State Transition σt τt) (j : Nat) : Prop :=
  runBool ops s₀ j = true ∧ can_simplify (runState ops s₀ j) = false

/-- The `j`-th public `simplify()` call attempted an InitialState shrink:
it either installed a new last valid initial state (success) or turned off
`is_initial_state_shrinkable` (rejected or exhausted). -/
def InitAttempt [Inhabited τt] (ops : Ops State Transition σt τt)
    (s₀ : SVT State Transition σt τt) (j : Nat) : Prop :=
  (runState ops s₀ (j + 1)).last_valid_initial_state
    ≠ (runState ops s₀ j).last_valid_initial_state ∨
  ((runState ops s₀ j).is_initial_state_shrinkable = true ∧
    (runState ops s₀ (j + 1)).is_initial_state_shrinkable = false)

/-- Rank of the concrete model's initial-state trees: the value itself
(each successful simplify `n → n - 1` decreases it). -/
def natSRank : Nat → Nat := fun n => n

/-- Rank of the concrete model's transition trees (they never report
progress, so any rank works). -/
def natTRank : Nat → Nat := fun t => t

/-! ## Helper lemmas on list bit-vectors -/

theorem getD_set_self {α : Type} (l : List α) {ix : Nat} (h : ix < l.length)
    (v d : α) : (l.set ix v).getD ix d = v := by
  rw [List.getD_eq_getElem?_getD, List.getElem?_set_self h]
  rfl

theorem getD_set_ne {α : Type} (l : List α) {ix j : Nat} (h : ix ≠ j)
    (v d : α) : (l.set ix v).getD j d = l.getD j d := by
  rw [List.getD_eq_getElem?_getD, List.getElem?_set_ne h,
    ← List.getD_eq_getElem?_getD]

theorem getElem?_eq_some_true_of_getD {l : List Bool} {ix : Nat}
    (h : l.getD ix false = true) : l[ix]? = some true := by
  rw [List.getD_eq_getElem?_getD] at h
  cases hx : l[ix]? with
  | none => rw [hx] at h; simp at h
  | some b => rw [hx] at h; simp at h; rw [h]

theorem lt_length_of_getD_true {l : List Bool} {ix : Nat}
    (h : l.getD ix false = true) : ix < l.length := by
  have hx := getElem?_eq_some_true_of_getD h
  by_contra hlt
  rw [List.getElem?_eq_none (by omega)] at hx
  exact Option.noConfusion hx

theorem set_eq_self_of_getElem? {α : Type} {l : List α} {ix : Nat} {v : α}
    (h : l[ix]? = some v) : l.set ix v = l := by
  induction l generalizing ix with
  | nil => rfl
  | cons a t ih =>
    cases ix with
    | zero => simp at h; simp [h]
    | succ n => simp at h ⊢; exact ih h

theorem set_true_of_getD_true {l : List Bool} {ix : Nat}
    (h : l.getD ix false = true) : l.set ix true = l :=
  set_eq_self_of_getElem? (getElem?_eq_some_true_of_getD h)

theorem count_true_set_false {l : List Bool} {ix : Nat}
    (h : l.getD ix false = true) :
    (l.set ix false).count true + 1 = l.count true := by
  have hlt : ix < l.length := lt_length_of_getD_true h
  have hget : l[ix] = true := by
    have hx := getElem?_eq_some_true_of_getD h
    rw [List.getElem?_eq_getElem hlt] at hx
    exact Option.some_inj.mp hx
  have hpos : 0 < l.count true := by
    have : true ∈ l := hget ▸ List.getElem_mem hlt
    exact List.count_pos_iff.mpr this
  rw [List.count_set _ _ _ _ hlt, hget]
  simp
  omega

/-! ## Shared lemmas about the Delete shrink branch -/

/-- An accepted Delete step: the source clears the included bit, records
`last_shrink`, advances the plan, then (the re-validation having passed)
clears the shrinkable bit and returns `true`. -/
theorem try_simplify_delete_accept [Inhabited τt] (ops : Ops State Transition σt τt)
    (svt : SVT State Transition σt τt) (ix fuel : Nat)
    (hsh : svt.shrink = .DeleteTransition ix)
    (hchk : check_acceptable ops (deleteApplied svt ix) none = true) :
    try_simplifyF ops (fuel + 1) svt = some (true,
      { deleteApplied svt ix with
        shrinkable_transitions := svt.shrinkable_transitions.set ix false }) := by
  simp only [try_simplifyF, hsh]
  rw [show check_acceptable ops (deleteApplied svt ix) none = true from hchk]
  rfl

/-- A rejected Delete step: the source restores the included bit, clears
`last_shrink`, and retries the advanced plan without reporting to the
host. -/
theorem try_simplify_delete_reject [Inhabited τt] (ops : Ops State Transition σt τt)
    (svt : SVT State Transition σt τt) (ix fuel : Nat)
    (hsh : svt.shrink = .DeleteTransition ix)
    (hchk : check_acceptable ops (deleteApplied svt ix) none = false) :
    try_simplifyF ops (fuel + 1) svt
      = try_simplifyF ops fuel (deleteRestored (deleteApplied svt ix) ix) := by
  simp only [try_simplifyF, hsh]
  rw [show check_acceptable ops (deleteApplied svt ix) none = false from hchk]
  rfl

/-- Restoring a rejected delete recovers the original included bit-set. -/
theorem deleteRestored_included (svt : SVT State Transition σt τt) {ix : Nat}
    (hinc : svt.included_transitions.getD ix false = true) :
    (deleteRestored (deleteApplied svt ix) ix).included_transitions
      = svt.included_transitions := by
  show (svt.included_transitions.set ix false).set ix true = svt.included_transitions
  rw [List.set_set]
  exact set_true_of_getD_true hinc

/-! ## Bookkeeping lemmas for the shrink measures -/

theorem getElem?_eq_some_false_of_getD {l : List Bool} {ix : Nat}
    (hlt : ix < l.length) (h : l.getD ix false = false) : l[ix]? = some false := by
  rw [List.getD_eq_getElem?_getD] at h
  rw [List.getElem?_eq_getElem hlt] at h ⊢
  simp at h
  rw [h]

theorem set_false_eq_self_of_getD_false {l : List Bool} {ix : Nat}
    (h : l.getD ix false = false) : l.set ix false = l := by
  by_cases hlt : ix < l.length
  · exact set_eq_self_of_getElem? (getElem?_eq_some_false_of_getD hlt h)
  · exact List.set_eq_of_length_le (by omega)

theorem count_true_set_false_le (l : List Bool) (ix : Nat) :
    (l.set ix false).count true ≤ l.count true := by
  cases hb : l.getD ix false with
  | true => have := count_true_set_false hb; omega
  | false => rw [set_false_eq_self_of_getD_false hb]

theorem exists_true_of_count_pos {l : List Bool} (h : 0 < l.count true) :
    ∃ j, j < l.length ∧ l.getD j false = true := by
  have hmem : true ∈ l := by
    by_contra hmem
    rw [List.count_eq_zero_of_not_mem hmem] at h
    omega
  obtain ⟨j, hj, hget⟩ := List.getElem_of_mem hmem
  refine ⟨j, hj, ?_⟩
  rw [List.getD_eq_getElem?_getD, List.getElem?_eq_getElem hj, hget]
  rfl

theorem idxSum_nil (f : Nat → TransitionState × Transition → Nat) (k : Nat) :
    idxSum f k [] = 0 := rfl

theorem idxSum_cons (f : Nat → TransitionState × Transition → Nat) (k : Nat)
    (p : TransitionState × Transition) (rest : List (TransitionState × Transition)) :
    idxSum f k (p :: rest) = f k p + idxSum f (k + 1) rest := rfl

theorem idxSum_mono (f g : Nat → TransitionState × Transition → Nat)
    (h : ∀ i p, f i p ≤ g i p) :
    ∀ (acc : List (TransitionState × Transition)) (k : Nat),
      idxSum f k acc ≤ idxSum g k acc := by
  intro acc
  induction acc with
  | nil => intro k; exact Nat.le_refl _
  | cons p rest ih =>
    intro k
    unfold idxSum
    have := ih (k + 1)
    have := h k p
    omega

theorem idxSum_set (f : Nat → TransitionState × Transition → Nat) :
    ∀ (acc : List (TransitionState × Transition)) (k ix : Nat)
      (p q : TransitionState × Transition), acc[ix]? = some q →
      idxSum f k (acc.set ix p) + f (k + ix) q = idxSum f k acc + f (k + ix) p := by
  intro acc
  induction acc with
  | nil => intro k ix p q hq; exact Option.noConfusion hq
  | cons a rest ih =>
    intro k ix p q hq
    cases ix with
    | zero =>
      simp at hq
      subst hq
      unfold idxSum
      simp [List.set]
      omega
    | succ n =>
      simp at hq
      rw [show (a :: rest).set (n + 1) p = a :: rest.set n p from rfl,
        idxSum_cons, idxSum_cons]
      have := ih (k + 1) n p q hq
      rw [show k + 1 + n = k + (n + 1) by omega] at this
      omega

theorem sum_map_set {α : Type} (f : α → Nat) :
    ∀ (l : List α) (ix : Nat) (v w : α), l[ix]? = some w →
      ((l.set ix v).map f).sum + f w = (l.map f).sum + f v := by
  intro l
  induction l with
  | nil => intro ix v w hw; exact Option.noConfusion hw
  | cons a rest ih =>
    intro ix v w hw
    cases ix with
    | zero =>
      simp at hw
      subst hw
      simp [List.set]
      omega
    | succ n =>
      simp at hw
      have := ih n v w hw
      show (f a + ((rest.set n v).map f).sum) + f w = (f a + (rest.map f).sum) + f v
      omega

theorem rejCount_set_acc (incl : List Bool)
    (acc : List (TransitionState × Transition)) (j : Nat)
    (p q : TransitionState × Transition) (hq : acc[j]? = some q) :
    rejCount incl (acc.set j p)
        + (if incl.getD j false && isRejected q.1 then 1 else 0)
      = rejCount incl acc
        + (if incl.getD j false && isRejected p.1 then 1 else 0) := by
  unfold rejCount
  have h := idxSum_set
    (fun i r => if incl.getD i false && isRejected r.1 then 1 else 0) acc 0 j p q hq
  simpa using h

theorem srCount_set_acc (incl : List Bool)
    (acc : List (TransitionState × Transition)) (j : Nat)
    (p q : TransitionState × Transition) (hq : acc[j]? = some q) :
    srCount incl (acc.set j p)
        + (if incl.getD j false && !(isSimpRej q.1) then 1 else 0)
      = srCount incl acc
        + (if incl.getD j false && !(isSimpRej p.1) then 1 else 0) := by
  unfold srCount
  have h := idxSum_set
    (fun i r => if incl.getD i false && !(isSimpRej r.1) then 1 else 0) acc 0 j p q hq
  simpa using h

/-! ## The cyclic-distance function used by the loop measure -/

theorem dist_succ (shr : List Bool) (m fuel ix : Nat) :
    distToShrinkable shr m (fuel + 1) ix
      = if shr.getD ix false then 0
        else 1 + distToShrinkable shr m fuel (wrapNext m ix) := rfl

theorem dist_succ_of_false {shr : List Bool} {m ix : Nat} (fuel : Nat)
    (hb : shr.getD ix false = false) :
    distToShrinkable shr m (fuel + 1) ix
      = 1 + distToShrinkable shr m fuel (wrapNext m ix) := by
  rw [dist_succ, if_neg (by rw [hb]; exact Bool.false_ne_true)]

theorem dist_le_fuel (shr : List Bool) (m : Nat) :
    ∀ fuel ix, distToShrinkable shr m fuel ix ≤ fuel := by
  intro fuel
  induction fuel with
  | zero => intro ix; exact Nat.le_refl _
  | succ n ih =>
    intro ix
    rw [dist_succ]
    split
    · omega
    · have := ih (wrapNext m ix)
      omega

theorem dist_zero_of_true {shr : List Bool} {m ix : Nat} (fuel : Nat)
    (h : shr.getD ix false = true) :
    distToShrinkable shr m (fuel + 1) ix = 0 := by
  rw [dist_succ, if_pos h]

theorem dist_stable (shr : List Bool) (m : Nat) :
    ∀ fuel ix, distToShrinkable shr m fuel ix < fuel →
      distToShrinkable shr m (fuel + 1) ix = distToShrinkable shr m fuel ix := by
  intro fuel
  induction fuel with
  | zero => intro ix h; omega
  | succ n ih =>
    intro ix h
    cases hb : shr.getD ix false with
    | true => rw [dist_zero_of_true n hb, dist_zero_of_true (n + 1) hb]
    | false =>
      rw [dist_succ_of_false n hb] at h ⊢
      rw [dist_succ_of_false (n + 1) hb]
      rw [ih (wrapNext m ix) (by omega)]

theorem dist_le_of_reach (shr : List Bool) (m : Nat) :
    ∀ δ ix fuel, δ < fuel → shr.getD ((wrapNext m)^[δ] ix) false = true →
      distToShrinkable shr m fuel ix ≤ δ := by
  intro δ
  induction δ with
  | zero =>
    intro ix fuel hf h
    rw [Function.iterate_zero_apply] at h
    cases fuel with
    | zero => omega
    | succ n => rw [dist_zero_of_true n h]
  | succ d ih =>
    intro ix fuel hf h
    cases hb : shr.getD ix false with
    | true =>
      cases fuel with
      | zero => omega
      | succ n => rw [dist_zero_of_true n hb]; omega
    | false =>
      cases fuel with
      | zero => omega
      | succ n =>
        rw [dist_succ_of_false n hb]
        rw [Function.iterate_succ_apply] at h
        have := ih (wrapNext m ix) n (by omega) h
        omega

theorem wrapNext_iterate_le (m : Nat) :
    ∀ k ix, ix + k ≤ m → (wrapNext m)^[k] ix = ix + k := by
  intro k
  induction k with
  | zero => intro ix _; rfl
  | succ n ih =>
    intro ix h
    rw [Function.iterate_succ_apply', ih ix (by omega)]
    unfold wrapNext
    rw [if_neg (by omega)]
    omega

theorem wrapNext_reach {m ix j : Nat} (hix : ix ≤ m) (hj : j ≤ m) :
    ∃ δ, δ ≤ m ∧ (wrapNext m)^[δ] ix = j := by
  by_cases hge : ix ≤ j
  · exact ⟨j - ix, by omega, by rw [wrapNext_iterate_le m (j - ix) ix (by omega)]; omega⟩
  · refine ⟨m - ix + 1 + j, by omega, ?_⟩
    rw [show m - ix + 1 + j = (m - ix + 1) + j by rfl, Nat.add_comm (m - ix + 1) j,
      Function.iterate_add_apply]
    have h0 : (wrapNext m)^[m - ix + 1] ix = 0 := by
      rw [Function.iterate_succ_apply', wrapNext_iterate_le m (m - ix) ix (by omega)]
      unfold wrapNext
      rw [if_pos (by omega)]
    rw [h0, wrapNext_iterate_le m j 0 (by omega)]
    omega

theorem dist_lt_of_exists {shr : List Bool} {m ix : Nat} (hix : ix ≤ m)
    (hex : ∃ j, j ≤ m ∧ shr.getD j false = true) :
    distToShrinkable shr m (m + 1) ix ≤ m := by
  obtain ⟨j, hj, hge⟩ := hex
  obtain ⟨δ, hδ, hit⟩ := wrapNext_reach hix hj
  exact Nat.le_trans (dist_le_of_reach shr m δ ix (m + 1) (by omega) (hit ▸ hge)) hδ

theorem dist_advance {shr : List Bool} {m ix : Nat}
    (hb : shr.getD ix false = false) (hix : ix ≤ m)
    (hex : ∃ j, j ≤ m ∧ shr.getD j false = true) :
    distToShrinkable shr m (m + 2) ix
      = distToShrinkable shr m (m + 2) (wrapNext m ix) + 1 := by
  have hnext : wrapNext m ix ≤ m := by
    unfold wrapNext
    split <;> omega
  have hlt : distToShrinkable shr m (m + 1) (wrapNext m ix) ≤ m :=
    dist_lt_of_exists hnext hex
  have h1 : distToShrinkable shr m (m + 1 + 1) ix
      = 1 + distToShrinkable shr m (m + 1) (wrapNext m ix) :=
    dist_succ_of_false (m + 1) hb
  have h2 : distToShrinkable shr m (m + 1 + 1) (wrapNext m ix)
      = distToShrinkable shr m (m + 1) (wrapNext m ix) :=
    dist_stable shr m (m + 1) (wrapNext m ix) (by omega)
  rw [show m + 2 = m + 1 + 1 from rfl, h1, h2]
  omega

/-! ## Bridges between the loop predicates and their specifications -/

theorem allIncludedRejected_spec (included : List Bool) :
    ∀ (acc : List (TransitionState × Transition)) (k : Nat),
      allIncludedRejected included k acc = true →
      ∀ i p, acc[i]? = some p → included.getD (k + i) false = true →
        isRejected p.1 = true := by
  intro acc
  induction acc with
  | nil => intro k _ i p hp _; exact Option.noConfusion hp
  | cons a rest ih =>
    intro k h i p hp hinc
    unfold allIncludedRejected at h
    rw [Bool.and_eq_true] at h
    cases i with
    | zero =>
      simp at hp
      subst hp
      rcases Bool.or_eq_true_iff.mp h.1 with h1 | h1
      · rw [show k + 0 = k by rfl] at hinc
        rw [hinc] at h1
        exact Bool.noConfusion h1
      · exact h1
    | succ n =>
      simp at hp
      exact ih (k + 1) h.2 n p hp (by rw [show k + 1 + n = k + (n + 1) by omega]; exact hinc)

theorem can_simplify_false_elim (svt : SVT State Transition σt τt)
    (h : can_simplify svt = false) :
    svt.is_initial_state_shrinkable = false ∧
    allIncludedRejected svt.included_transitions 0 svt.acceptable_transitions = true := by
  unfold can_simplify at h
  rw [Bool.or_eq_false_iff] at h
  refine ⟨h.1, ?_⟩
  have h2 := h.2
  cases hb : allIncludedRejected svt.included_transitions 0 svt.acceptable_transitions
  · rw [hb] at h2
    exact absurd h2 (by simp)
  · rfl

theorem accNew_not_of_eq {svt svt' : SVT State Transition σt τt}
    (h : svt'.acceptable_transitions = svt.acceptable_transitions) :
    ¬ accNewlyAccepted svt svt' := by
  rintro ⟨ix, w, h1, h2⟩
  rw [h] at h1
  exact h2 h1

theorem next_shrink_eq_wrap (svt : SVT State Transition σt τt) (ix : Nat) :
    next_shrink_transition svt ix = .Transition (wrapNext svt.max_ix ix) := by
  unfold next_shrink_transition wrapNext
  split <;> rfl

theorem setStatusAt_shrinkable (svt : SVT State Transition σt τt) (ix : Nat)
    (st : TransitionState) :
    (setStatusAt svt ix st).shrinkable_transitions = svt.shrinkable_transitions := by
  unfold setStatusAt
  split <;> rfl

theorem setStatusAt_max_ix (svt : SVT State Transition σt τt) (ix : Nat)
    (st : TransitionState) :
    (setStatusAt svt ix st).max_ix = svt.max_ix := by
  unfold setStatusAt
  split <;> rfl

/-- `setStatusAt` either leaves the state unchanged (out of range) or
replaces just the status at `ix`. -/
theorem setStatusAt_cases (svt : SVT State Transition σt τt) (ix : Nat)
    (st : TransitionState) :
    (setStatusAt svt ix st = svt ∧ svt.acceptable_transitions[ix]? = none) ∨
    (∃ p, svt.acceptable_transitions[ix]? = some p ∧
      setStatusAt svt ix st
        = { svt with acceptable_transitions := svt.acceptable_transitions.set ix (st, p.2) }) := by
  unfold setStatusAt
  cases hp : svt.acceptable_transitions[ix]? with
  | none => exact Or.inl ⟨rfl, rfl⟩
  | some p => exact Or.inr ⟨p, rfl, rfl⟩

/-! ## The recovery probe returns either failure or one promoted slot -/

/-- `try_to_find_acceptable_transition`'s loop either fails leaving the
state unchanged, or promotes a single included, acceptable slot. -/
theorem findAcceptableGo_cases [Inhabited τt] (ops : Ops State Transition σt τt)
    (svt : SVT State Transition σt τt) (six : Nat) :
    ∀ fuel ix, findAcceptableGo ops svt six fuel ix = (false, svt) ∨
      ∃ j, svt.included_transitions.getD j false = true ∧
        check_acceptable ops svt (some j) = true ∧
        findAcceptableGo ops svt six fuel ix = (true, setAcceptedAt ops svt j) := by
  intro fuel
  induction fuel with
  | zero => intro ix; exact Or.inl rfl
  | succ n ih =>
    intro ix
    unfold findAcceptableGo
    by_cases h : (svt.included_transitions.getD ix false &&
        check_acceptable ops svt (some ix)) = true
    · rw [if_pos h]
      simp only [Bool.and_eq_true] at h
      exact Or.inr ⟨ix, h.1, h.2, rfl⟩
    · rw [if_neg h]
      dsimp only
      split
      · split
        · exact Or.inl rfl
        · exact ih _
      · split
        · exact Or.inl rfl
        · exact ih _

/-! ## `complicate` never records an InitialState shrink -/

/-- After any `complicate()` call, `last_shrink` is not
`Some(InitialState)` (no arm ever stores it). -/
theorem complicate_last_shrink_ne_init [Inhabited τt]
    (ops : Ops State Transition σt τt) (svt : SVT State Transition σt τt)
    (hne : svt.last_shrink ≠ some Shrink.InitialState) :
    (complicate ops svt).2.last_shrink ≠ some Shrink.InitialState := by
  unfold complicate
  rcases hls : svt.last_shrink with _ | s
  · simp [hls]
  · rcases s with _ | ix | ix
    · exact absurd hls hne
    · simp only
      intro hcon
      exact Option.noConfusion hcon
    · simp only
      split
      · split
        · simp [setAcceptedAt, hls]
        · intro hcon; exact Option.noConfusion hcon
      · intro hcon; exact Option.noConfusion hcon

/-- `setStatusAt` only touches `acceptable_transitions`. -/
theorem setStatusAt_last_shrink (svt : SVT State Transition σt τt) (ix : Nat)
    (st : TransitionState) : (setStatusAt svt ix st).last_shrink = svt.last_shrink := by
  unfold setStatusAt
  split <;> rfl

/-! ## Congruence and composition helpers for the per-call facts -/

theorem wrapNext_le {m ix : Nat} (h : ix ≤ m) : wrapNext m ix ≤ m := by
  unfold wrapNext
  split <;> omega

theorem shrinkIxOkAux_congr {a b : SVT State Transition σt τt}
    (h5 : a.max_ix = b.max_ix)
    (h3 : a.included_transitions = b.included_transitions) (s : Shrink) :
    shrinkIxOkAux a s ↔ shrinkIxOkAux b s := by
  cases s <;> unfold shrinkIxOkAux <;> rw [h5, h3]

theorem INV_congr {a b : SVT State Transition σt τt}
    (h1 : a.transitions = b.transitions)
    (h2 : a.acceptable_transitions = b.acceptable_transitions)
    (h3 : a.included_transitions = b.included_transitions)
    (h4 : a.shrinkable_transitions = b.shrinkable_transitions)
    (h5 : a.max_ix = b.max_ix)
    (h6 : a.shrink = b.shrink) : INV a ↔ INV b := by
  unfold INV shrinkIxOk statusAt
  rw [h1, h2, h3, h4, h5, h6, shrinkIxOkAux_congr h5 h3 b.shrink]

theorem can_simplify_congr {a b : SVT State Transition σt τt}
    (h1 : a.is_initial_state_shrinkable = b.is_initial_state_shrinkable)
    (h2 : a.included_transitions = b.included_transitions)
    (h3 : a.acceptable_transitions = b.acceptable_transitions) :
    can_simplify a = can_simplify b := by
  unfold can_simplify
  rw [h1, h2, h3]

theorem Mtot_congr {a b : SVT State Transition σt τt}
    (srank : σt → Nat) (trank : τt → Nat)
    (h1 : a.included_transitions = b.included_transitions)
    (h2 : a.initial_state = b.initial_state)
    (h3 : a.transitions = b.transitions)
    (h4 : a.acceptable_transitions = b.acceptable_transitions) :
    Mtot srank trank a = Mtot srank trank b := by
  unfold Mtot rejCount
  rw [h1, h2, h3, h4]

theorem accNew_congr_left {svt mid svt' : SVT State Transition σt τt}
    (hac : mid.acceptable_transitions = svt.acceptable_transitions) :
    accNewlyAccepted svt svt' ↔ accNewlyAccepted mid svt' := by
  unfold accNewlyAccepted
  rw [hac]

/-- Per-call facts for a call that completes without changing the state. -/
theorem stepFacts_self (ops : Ops State Transition σt τt)
    {svt : SVT State Transition σt τt} (h : INV svt) :
    StepFacts ops svt svt false :=
  { inv := h
    rank_mono := Nat.le_refl _
    lvis_change := fun hc => absurd rfl hc
    lvis_nacc := fun hc => absurd rfl hc
    incl_change := fun hc => absurd rfl hc
    acc_entry := fun hacc => absurd hacc (accNew_not_of_eq rfl)
    acc_post := fun hacc => absurd hacc (accNew_not_of_eq rfl)
    init_mono := id
    m_dec := fun _ _ _ => ⟨Nat.le_refl _, fun hb => Bool.noConfusion hb⟩ }

/-- Compose the per-call facts of a recursive call on an intermediate state
`mid` that differs from `svt` only in fields the facts do not inspect
(plan, atomic-tree states, shrinkable bits). -/
theorem stepFacts_comp (ops : Ops State Transition σt τt)
    {svt mid svt' : SVT State Transition σt τt} {b : Bool}
    (hIH : StepFacts ops mid svt' b)
    (hstr : accNewlyAccepted mid svt' → 1 ≤ rankOf svt'.shrink)
    (hlv : mid.last_valid_initial_state = svt.last_valid_initial_state)
    (hin : mid.included_transitions = svt.included_transitions)
    (hac : mid.acceptable_transitions = svt.acceptable_transitions)
    (his : mid.is_initial_state_shrinkable = svt.is_initial_state_shrinkable)
    (hrk : rankOf svt.shrink ≤ rankOf mid.shrink)
    (hrk0 : rankOf mid.shrink = 0 → rankOf svt.shrink = 0)
    (hM : ∀ (srank : σt → Nat) (trank : τt → Nat), RankedOps ops srank trank →
      Mtot srank trank mid ≤ Mtot srank trank svt) :
    StepFacts ops svt svt' b ∧
    (accNewlyAccepted svt svt' → 1 ≤ rankOf svt'.shrink) := by
  refine ⟨?_, fun h => hstr ((accNew_congr_left hac).mp h)⟩
  exact
    { inv := hIH.inv
      rank_mono := Nat.le_trans hrk hIH.rank_mono
      lvis_change := fun h => hIH.lvis_change (by rw [hlv]; exact h)
      lvis_nacc := fun h hacc =>
        hIH.lvis_nacc (by rw [hlv]; exact h) ((accNew_congr_left hac).mp hacc)
      incl_change := fun h => by
        rw [← hin] at h
        obtain ⟨h1, h2, h3⟩ := hIH.incl_change h
        exact ⟨hrk0 h1, by rw [h2, hac], by rw [h3, hlv]⟩
      acc_entry := fun h => by
        rcases hIH.acc_entry ((accNew_congr_left hac).mp h) with h1 | h1
        · exact Or.inl (Nat.le_trans hrk h1)
        · exact Or.inr (by rw [← can_simplify_congr his hin hac]; exact h1)
      acc_post := fun h => Or.inl (hstr ((accNew_congr_left hac).mp h))
      init_mono := fun h => by rw [← his]; exact hIH.init_mono h
      m_dec := fun srank trank hr =>
        ⟨Nat.le_trans (hIH.m_dec srank trank hr).1 (hM srank trank hr),
         fun hb => Nat.lt_of_lt_of_le ((hIH.m_dec srank trank hr).2 hb)
           (hM srank trank hr)⟩ }

/-! ## Branch equations for the Simplify-phase loop -/

theorem try_simplify_transition_count0 [Inhabited τt] (ops : Ops State Transition σt τt)
    (svt : SVT State Transition σt τt) (ix fuel : Nat)
    (hs : svt.shrink = .Transition ix)
    (hc : svt.shrinkable_transitions.count true = 0) :
    try_simplifyF ops (fuel + 1) svt
      = try_simplifyF ops fuel { svt with shrink := .InitialState } := by
  obtain ⟨ist, iss, lvis, pre, nxt, trs, acc, incl, shrk, mix, sh, lsh⟩ := svt
  simp only at hs hc ⊢
  subst hs
  conv_lhs => unfold try_simplifyF
  simp only
  rw [if_pos hc]

theorem try_simplify_transition_notincl [Inhabited τt] (ops : Ops State Transition σt τt)
    (svt : SVT State Transition σt τt) (ix fuel : Nat)
    (hs : svt.shrink = .Transition ix)
    (hc : ¬ svt.shrinkable_transitions.count true = 0)
    (hni : svt.included_transitions.getD ix false = false) :
    try_simplifyF ops (fuel + 1) svt
      = try_simplifyF ops fuel { svt with shrink := next_shrink_transition svt ix } := by
  obtain ⟨ist, iss, lvis, pre, nxt, trs, acc, incl, shrk, mix, sh, lsh⟩ := svt
  simp only at hs hc hni ⊢
  subst hs
  conv_lhs => unfold try_simplifyF
  simp only
  rw [if_neg hc, hni]
  rfl

theorem try_simplify_transition_simprej [Inhabited τt] (ops : Ops State Transition σt τt)
    (svt : SVT State Transition σt τt) (ix fuel : Nat) (t : Transition)
    (hs : svt.shrink = .Transition ix)
    (hc : ¬ svt.shrinkable_transitions.count true = 0)
    (hi : svt.included_transitions.getD ix false = true)
    (hrej : svt.acceptable_transitions[ix]? = some (.SimplifyRejected, t)) :
    try_simplifyF ops (fuel + 1) svt
      = try_simplifyF ops fuel { svt with shrink := next_shrink_transition svt ix } := by
  obtain ⟨ist, iss, lvis, pre, nxt, trs, acc, incl, shrk, mix, sh, lsh⟩ := svt
  simp only at hs hc hi hrej ⊢
  subst hs
  conv_lhs => unfold try_simplifyF
  simp only
  rw [if_neg hc, hi, hrej]
  rfl

theorem try_simplify_transition_noprog [Inhabited τt] (ops : Ops State Transition σt τt)
    (svt : SVT State Transition σt τt) (ix fuel : Nat)
    (hs : svt.shrink = .Transition ix)
    (hc : ¬ svt.shrinkable_transitions.count true = 0)
    (hi : svt.included_transitions.getD ix false = true)
    (hnrej : (match svt.acceptable_transitions[ix]? with
              | some (.SimplifyRejected, _) => true
              | _ => false) = false)
    (hnp : (ops.tSimplify (svt.transitions.getD ix default)).1 = false) :
    try_simplifyF ops (fuel + 1) svt
      = try_simplifyF ops fuel
          { svt with
            transitions :=
              svt.transitions.set ix (ops.tSimplify (svt.transitions.getD ix default)).2
            shrinkable_transitions := svt.shrinkable_transitions.set ix false
            shrink := next_shrink_transition svt ix } := by
  obtain ⟨ist, iss, lvis, pre, nxt, trs, acc, incl, shrk, mix, sh, lsh⟩ := svt
  simp only at hs hc hi hnrej hnp ⊢
  subst hs
  conv_lhs => unfold try_simplifyF
  simp only
  rw [if_neg hc, hi, hnrej, hnp]
  rfl

theorem try_simplify_transition_prog_acc [Inhabited τt] (ops : Ops State Transition σt τt)
    (svt : SVT State Transition σt τt) (ix fuel : Nat)
    (hs : svt.shrink = .Transition ix)
    (hc : ¬ svt.shrinkable_transitions.count true = 0)
    (hi : svt.included_transitions.getD ix false = true)
    (hnrej : (match svt.acceptable_transitions[ix]? with
              | some (.SimplifyRejected, _) => true
              | _ => false) = false)
    (hprog : (ops.tSimplify (svt.transitions.getD ix default)).1 = true)
    (hchk : check_acceptable ops
        { svt with
          transitions :=
            svt.transitions.set ix (ops.tSimplify (svt.transitions.getD ix default)).2
          last_shrink := some (Shrink.Transition ix) } (some ix) = true) :
    try_simplifyF ops (fuel + 1) svt
      = some (true, setAcceptedAt ops
          { svt with
            transitions :=
              svt.transitions.set ix (ops.tSimplify (svt.transitions.getD ix default)).2
            last_shrink := some (Shrink.Transition ix) } ix) := by
  obtain ⟨ist, iss, lvis, pre, nxt, trs, acc, incl, shrk, mix, sh, lsh⟩ := svt
  simp only at hs hc hi hnrej hprog hchk ⊢
  subst hs
  conv_lhs => unfold try_simplifyF
  simp only
  rw [if_neg hc, hi, hnrej, hprog]
  simp only [Bool.not_true, Bool.false_eq_true, if_false, if_true]
  rw [if_pos hchk]

theorem try_simplify_transition_prog_rej [Inhabited τt] (ops : Ops State Transition σt τt)
    (svt : SVT State Transition σt τt) (ix fuel : Nat)
    (hs : svt.shrink = .Transition ix)
    (hc : ¬ svt.shrinkable_transitions.count true = 0)
    (hi : svt.included_transitions.getD ix false = true)
    (hnrej : (match svt.acceptable_transitions[ix]? with
              | some (.SimplifyRejected, _) => true
              | _ => false) = false)
    (hprog : (ops.tSimplify (svt.transitions.getD ix default)).1 = true)
    (hchk : check_acceptable ops
        { svt with
          transitions :=
            svt.transitions.set ix (ops.tSimplify (svt.transitions.getD ix default)).2
          last_shrink := some (Shrink.Transition ix) } (some ix) = false) :
    try_simplifyF ops (fuel + 1) svt
      = simplifyF ops fuel
          { setStatusAt
              { svt with
                transitions :=
                  svt.transitions.set ix (ops.tSimplify (svt.transitions.getD ix default)).2
                last_shrink := some (Shrink.Transition ix) } ix .SimplifyRejected with
            shrinkable_transitions := svt.shrinkable_transitions.set ix false
            shrink := next_shrink_transition svt ix } := by
  obtain ⟨ist, iss, lvis, pre, nxt, trs, acc, incl, shrk, mix, sh, lsh⟩ := svt
  simp only at hs hc hi hnrej hprog hchk ⊢
  subst hs
  conv_lhs => unfold try_simplifyF
  simp only
  rw [if_neg hc, hi, hnrej, hprog]
  simp only [Bool.not_true, Bool.false_eq_true, if_false, if_true]
  rw [if_neg (by rw [hchk]; exact Bool.false_ne_true)]
  simp only [next_shrink_transition, setStatusAt_shrinkable, setStatusAt_max_ix]

theorem try_simplify_initial_eq [Inhabited τt] (ops : Ops State Transition σt τt)
    (svt : SVT State Transition σt τt) (fuel : Nat)
    (hs : svt.shrink = .InitialState) :
    try_simplifyF ops (fuel + 1) svt
      = (if (ops.sSimplify svt.initial_state).1 then
          if check_acceptable ops svt none then
            some (true,
              { svt with
                initial_state := (ops.sSimplify svt.initial_state).2
                last_valid_initial_state :=
                  ops.sCurrent (ops.sSimplify svt.initial_state).2 })
          else
            some (false,
              { svt with
                initial_state := (ops.sSimplify svt.initial_state).2
                last_shrink := none
                is_initial_state_shrinkable := false })
        else
          some (false,
            { svt with
              initial_state := (ops.sSimplify svt.initial_state).2
              is_initial_state_shrinkable := false })) := by
  obtain ⟨ist, iss, lvis, pre, nxt, trs, acc, incl, shrk, mix, sh, lsh⟩ := svt
  simp only at hs ⊢
  subst hs
  conv_lhs => unfold try_simplifyF
  rfl

theorem simplifyF_can_eq [Inhabited τt] (ops : Ops State Transition σt τt)
    (svt : SVT State Transition σt τt) (fuel : Nat)
    (hcs : can_simplify svt = true) :
    simplifyF ops (fuel + 1) svt = try_simplifyF ops fuel svt := by
  conv_lhs => unfold simplifyF
  rw [if_pos hcs]

theorem simplifyF_nocan_eq [Inhabited τt] (ops : Ops State Transition σt τt)
    (svt : SVT State Transition σt τt) (fuel : Nat)
    (hcs : can_simplify svt = false) :
    simplifyF ops (fuel + 1) svt
      = (match svt.last_shrink with
        | some (.Transition ix) => some (try_to_find_acceptable_transition ops svt ix)
        | _ => some (false, svt)) := by
  conv_lhs => unfold simplifyF
  rw [if_neg (by rw [hcs]; exact Bool.false_ne_true)]

/-! ## Per-phase facts for `try_simplify` and `simplify` -/

/-- The InitialState phase: all three outcomes complete and satisfy the
per-call facts. -/
theorem main_step_initial [Inhabited τt] (ops : Ops State Transition σt τt)
    (n : Nat) (svt : SVT State Transition σt τt)
    (hs : svt.shrink = .InitialState) (hinv : INV svt) :
    ∃ b svt', try_simplifyF ops (n + 1) svt = some (b, svt') ∧
      StepFacts ops svt svt' b ∧
      (accNewlyAccepted svt svt' → 1 ≤ rankOf svt'.shrink) := by
  rw [try_simplify_initial_eq ops svt n hs]
  by_cases hp : (ops.sSimplify svt.initial_state).1 = true
  · by_cases hchk : check_acceptable ops svt none = true
    · rw [if_pos hp, if_pos hchk]
      refine ⟨true, _, rfl, ?_, fun hacc => absurd hacc (accNew_not_of_eq rfl)⟩
      exact
        { inv := (INV_congr rfl rfl rfl rfl rfl rfl).mp hinv
          rank_mono := Nat.le_refl _
          lvis_change := fun _ => hs
          lvis_nacc := fun _ => accNew_not_of_eq rfl
          incl_change := fun h => absurd rfl h
          acc_entry := fun hacc => absurd hacc (accNew_not_of_eq rfl)
          acc_post := fun hacc => absurd hacc (accNew_not_of_eq rfl)
          init_mono := id
          m_dec := fun srank trank hr => by
            have hlt := hr.sSimp_lt svt.initial_state hp
            constructor
            · unfold Mtot rejCount
              simp only
              omega
            · intro _
              unfold Mtot rejCount
              simp only
              omega }
    · rw [if_pos hp, if_neg hchk]
      refine ⟨false, _, rfl, ?_, fun hacc => absurd hacc (accNew_not_of_eq rfl)⟩
      exact
        { inv := (INV_congr rfl rfl rfl rfl rfl rfl).mp hinv
          rank_mono := Nat.le_refl _
          lvis_change := fun h => absurd rfl h
          lvis_nacc := fun h => absurd rfl h
          incl_change := fun h => absurd rfl h
          acc_entry := fun hacc => absurd hacc (accNew_not_of_eq rfl)
          acc_post := fun hacc => absurd hacc (accNew_not_of_eq rfl)
          init_mono := fun h => absurd h Bool.false_ne_true
          m_dec := fun srank trank hr => by
            have hle := hr.sSimp_le svt.initial_state
            refine ⟨?_, fun hb => Bool.noConfusion hb⟩
            unfold Mtot rejCount
            simp only
            omega }
  · rw [if_neg hp]
    refine ⟨false, _, rfl, ?_, fun hacc => absurd hacc (accNew_not_of_eq rfl)⟩
    exact
      { inv := (INV_congr rfl rfl rfl rfl rfl rfl).mp hinv
        rank_mono := Nat.le_refl _
        lvis_change := fun h => absurd rfl h
        lvis_nacc := fun h => absurd rfl h
        incl_change := fun h => absurd rfl h
        acc_entry := fun hacc => absurd hacc (accNew_not_of_eq rfl)
        acc_post := fun hacc => absurd hacc (accNew_not_of_eq rfl)
        init_mono := fun h => absurd h Bool.false_ne_true
        m_dec := fun srank trank hr => by
          have hle := hr.sSimp_le svt.initial_state
          refine ⟨?_, fun hb => Bool.noConfusion hb⟩
          unfold Mtot rejCount
          simp only
          omega }

/-- The top-level `simplify` call: delegate to `try_simplify` when anything
is left to shrink, otherwise run the recovery probe. -/
theorem main_step_simplify [Inhabited τt] (ops : Ops State Transition σt τt)
    (n : Nat)
    (IHtry : ∀ svt : SVT State Transition σt τt, INV svt → muTotal svt < n →
      ∃ b svt', try_simplifyF ops n svt = some (b, svt') ∧
        StepFacts ops svt svt' b ∧
        (accNewlyAccepted svt svt' → 1 ≤ rankOf svt'.shrink))
    (svt : SVT State Transition σt τt) (hinv : INV svt)
    (hmu : muTotal svt + 1 < n + 1) :
    ∃ b svt', simplifyF ops (n + 1) svt = some (b, svt') ∧
      StepFacts ops svt svt' b := by
  by_cases hcs : can_simplify svt = true
  · rw [simplifyF_can_eq ops svt n hcs]
    obtain ⟨b, svt', heq, hf, _⟩ := IHtry svt hinv (by omega)
    exact ⟨b, svt', heq, hf⟩
  · have hcs' : can_simplify svt = false := by
      revert hcs
      cases can_simplify svt <;> simp
    rw [simplifyF_nocan_eq ops svt n hcs']
    rcases hls : svt.last_shrink with _ | s
    · exact ⟨false, svt, rfl, stepFacts_self ops hinv⟩
    · rcases s with _ | ix | ix
      · exact ⟨false, svt, rfl, stepFacts_self ops hinv⟩
      · exact ⟨false, svt, rfl, stepFacts_self ops hinv⟩
      · rcases findAcceptableGo_cases ops svt ix (svt.max_ix + 2) ix with
          hfc | ⟨j, hj1, hj2, hfc⟩
        · refine ⟨false, svt, ?_, stepFacts_self ops hinv⟩
          show some (try_to_find_acceptable_transition ops svt ix) = some (false, svt)
          rw [show try_to_find_acceptable_transition ops svt ix
              = findAcceptableGo ops svt ix (svt.max_ix + 2) ix from rfl, hfc]
        · obtain ⟨hl1, hl2, hl3, hl4, hsix, hinv1, hinv2⟩ := hinv
          have hjlen : j < svt.acceptable_transitions.length := by
            have := lt_length_of_getD_true hj1
            omega
          obtain ⟨q, hq⟩ : ∃ q, svt.acceptable_transitions[j]? = some q :=
            ⟨_, List.getElem?_eq_getElem hjlen⟩
          refine ⟨true, setAcceptedAt ops svt j, ?_, ?_⟩
          · show some (try_to_find_acceptable_transition ops svt ix) = _
            rw [show try_to_find_acceptable_transition ops svt ix
                = findAcceptableGo ops svt ix (svt.max_ix + 2) ix from rfl, hfc]
          · have hrejq : isRejected q.1 = true := by
              have hall := (can_simplify_false_elim svt hcs').2
              exact allIncludedRejected_spec svt.included_transitions
                svt.acceptable_transitions 0 hall j q hq (by simpa using hj1)
            refine
              { inv := ?_
                rank_mono := Nat.le_refl _
                lvis_change := fun h => absurd rfl h
                lvis_nacc := fun h => absurd rfl h
                incl_change := fun h => absurd rfl h
                acc_entry := fun _ => Or.inr hcs'
                acc_post := fun _ => Or.inr ⟨hcs', rfl⟩
                init_mono := id
                m_dec := fun srank trank hr => ?_ }
            · refine ⟨hl1, ?_, hl3, hl4, ?_, hinv1, ?_⟩
              · show (svt.acceptable_transitions.set j _).length = _
                rw [List.length_set]
                exact hl2
              · exact (shrinkIxOkAux_congr rfl rfl svt.shrink).mpr hsix
              · intro i hi hst
                by_cases hij : i = j
                · subst hij
                  unfold statusAt at hst
                  rw [show (setAcceptedAt ops svt i).acceptable_transitions
                      = svt.acceptable_transitions.set i
                        (.Accepted, ops.tCurrent (svt.transitions.getD i default))
                      from rfl] at hst
                  rw [List.getElem?_set_self (by omega)] at hst
                  simp at hst
                · refine hinv2 i hi ?_
                  unfold statusAt at hst ⊢
                  rw [show (setAcceptedAt ops svt j).acceptable_transitions
                      = svt.acceptable_transitions.set j
                        (.Accepted, ops.tCurrent (svt.transitions.getD j default))
                      from rfl] at hst
                  rw [List.getElem?_set_ne (fun hc => hij hc.symm)] at hst
                  exact hst
            · have hset := rejCount_set_acc svt.included_transitions
                svt.acceptable_transitions j
                (.Accepted, ops.tCurrent (svt.transitions.getD j default)) q hq
              have hone : (if svt.included_transitions.getD j false && isRejected q.1
                  then 1 else 0) = 1 := by
                rw [hj1, hrejq]; rfl
              have hzero : (if svt.included_transitions.getD j false &&
                  isRejected ((TransitionState.Accepted : TransitionState),
                    ops.tCurrent (svt.transitions.getD j default)).1
                  then 1 else 0) = 0 := by
                rw [hj1]; rfl
              rw [hone, hzero] at hset
              refine ⟨?_, fun _ => ?_⟩ <;>
                · unfold Mtot
                  simp only [setAcceptedAt]
                  omega

/-- Reading any slot after clearing a bit can only go from `true` to
`true`. -/
theorem getD_set_false_true_imp {l : List Bool} {ix i : Nat}
    (h : (l.set ix false).getD i false = true) : l.getD i false = true := by
  by_cases hij : ix = i
  · subst hij
    by_cases hlt : ix < l.length
    · rw [getD_set_self _ hlt] at h
      exact absurd h (by simp)
    · rw [List.set_eq_of_length_le (by omega)] at h
      exact h
  · rw [getD_set_ne _ hij] at h
    exact h

/-- Clearing an included bit can only lower the rejected-slot count. -/
theorem rejCount_set_incl_false_le (incl : List Bool) (ix : Nat)
    (acc : List (TransitionState × Transition)) :
    rejCount (incl.set ix false) acc ≤ rejCount incl acc := by
  unfold rejCount
  refine idxSum_mono _ _ (fun i p => ?_) acc 0
  cases hA : (incl.set ix false).getD i false with
  | false => simp
  | true =>
    rw [getD_set_false_true_imp hA]

/-- The Delete phase: an accepted delete returns immediately with the
included and shrinkable bits cleared; a rejected delete restores the bit,
clears `last_shrink`, and retries the advanced plan. -/
theorem main_step_delete [Inhabited τt] (ops : Ops State Transition σt τt)
    (n : Nat)
    (IHtry : ∀ svt : SVT State Transition σt τt, INV svt → muTotal svt < n →
      ∃ b svt', try_simplifyF ops n svt = some (b, svt') ∧
        StepFacts ops svt svt' b ∧
        (accNewlyAccepted svt svt' → 1 ≤ rankOf svt'.shrink))
    (svt : SVT State Transition σt τt) (ix : Nat)
    (hs : svt.shrink = .DeleteTransition ix) (hinv : INV svt)
    (hmu : muTotal svt < n + 1) :
    ∃ b svt', try_simplifyF ops (n + 1) svt = some (b, svt') ∧
      StepFacts ops svt svt' b ∧
      (accNewlyAccepted svt svt' → 1 ≤ rankOf svt'.shrink) := by
  obtain ⟨hl1, hl2, hl3, hl4, hsix, hinv1, hinv2⟩ := hinv
  unfold shrinkIxOk at hsix
  rw [hs] at hsix
  obtain ⟨hixm, hdel⟩ := hsix
  have hinc : svt.included_transitions.getD ix false = true := hdel ix (Nat.le_refl ix)
  have hμ : muTotal svt
      = 2 * ix + 4 + (2 * ((svt.shrinkable_transitions.count true
          + srCount svt.included_transitions svt.acceptable_transitions)
        * (svt.max_ix + 3) + (svt.max_ix + 2)) + 4) := by
    unfold muTotal
    rw [hs]
  by_cases hchk : check_acceptable ops (deleteApplied svt ix) none = true
  · rw [try_simplify_delete_accept ops svt ix n hs hchk]
    refine ⟨true, _, rfl, ?_, fun hacc => absurd hacc (accNew_not_of_eq rfl)⟩
    refine
      { inv := ?_
        rank_mono := by rw [hs]; exact Nat.zero_le _
        lvis_change := fun h => absurd rfl h
        lvis_nacc := fun h => absurd rfl h
        incl_change := fun _ => ⟨by rw [hs]; rfl, rfl, rfl⟩
        acc_entry := fun hacc => absurd hacc (accNew_not_of_eq rfl)
        acc_post := fun hacc => absurd hacc (accNew_not_of_eq rfl)
        init_mono := id
        m_dec := fun srank trank hr => ?_ }
    · refine ⟨hl1, hl2, ?_, ?_, ?_, ?_, ?_⟩
      · show (svt.included_transitions.set ix false).length = svt.max_ix + 1
        rw [List.length_set]; exact hl3
      · show (svt.shrinkable_transitions.set ix false).length = svt.max_ix + 1
        rw [List.length_set]; exact hl4
      · show shrinkIxOkAux _ (if ix = 0 then Shrink.Transition 0
          else Shrink.DeleteTransition (ix - 1))
        by_cases hix0 : ix = 0
        · rw [if_pos hix0]
          exact Nat.zero_le _
        · rw [if_neg hix0]
          refine ⟨?_, fun j hj => ?_⟩
          · show ix - 1 ≤ svt.max_ix
            omega
          · show (svt.included_transitions.set ix false).getD j false = true
            rw [getD_set_ne _ (by omega : ix ≠ j)]
            exact hdel j (by omega)
      · intro i hi hsi
        have hsi' : (svt.shrinkable_transitions.set ix false).getD i false = true := hsi
        show (svt.included_transitions.set ix false).getD i false = true
        by_cases hij : i = ix
        · subst hij
          rw [getD_set_self _ (by omega : i < svt.shrinkable_transitions.length)] at hsi'
          exact absurd hsi' (by simp)
        · rw [getD_set_ne _ (fun hc => hij hc.symm)] at hsi'
          rw [getD_set_ne _ (fun hc => hij hc.symm)]
          exact hinv1 i hi hsi'
      · intro i hi hst
        show (svt.shrinkable_transitions.set ix false).getD i false = false
        by_cases hij : i = ix
        · subst hij
          rw [getD_set_self _ (by omega : i < svt.shrinkable_transitions.length)]
        · rw [getD_set_ne _ (fun hc => hij hc.symm)]
          exact hinv2 i hi hst
    · have hcnt := count_true_set_false hinc
      have hrej := rejCount_set_incl_false_le svt.included_transitions ix
        svt.acceptable_transitions
      constructor
      · show (svt.included_transitions.set ix false).count true
            + srank svt.initial_state + 2 * ((svt.transitions.map trank).sum)
            + rejCount (svt.included_transitions.set ix false)
                svt.acceptable_transitions
          ≤ svt.included_transitions.count true + srank svt.initial_state
            + 2 * ((svt.transitions.map trank).sum)
            + rejCount svt.included_transitions svt.acceptable_transitions
        omega
      · intro _
        show (svt.included_transitions.set ix false).count true
            + srank svt.initial_state + 2 * ((svt.transitions.map trank).sum)
            + rejCount (svt.included_transitions.set ix false)
                svt.acceptable_transitions
          < svt.included_transitions.count true + srank svt.initial_state
            + 2 * ((svt.transitions.map trank).sum)
            + rejCount svt.included_transitions svt.acceptable_transitions
        omega
  · have hchk' : check_acceptable ops (deleteApplied svt ix) none = false := by
      revert hchk
      cases check_acceptable ops (deleteApplied svt ix) none <;> simp
    rw [try_simplify_delete_reject ops svt ix n hs hchk']
    have hset2 : (svt.included_transitions.set ix false).set ix true
        = svt.included_transitions := by
      rw [List.set_set]
      exact set_true_of_getD_true hinc
    suffices h : INV (deleteRestored (deleteApplied svt ix) ix) ∧
        muTotal (deleteRestored (deleteApplied svt ix) ix) < n by
      obtain ⟨hinvmid, hmumid⟩ := h
      obtain ⟨b, svt', heq, hf, hstr⟩ := IHtry _ hinvmid hmumid
      have hcomp : StepFacts ops svt svt' b ∧
          (accNewlyAccepted svt svt' → 1 ≤ rankOf svt'.shrink) :=
        stepFacts_comp ops hf hstr rfl hset2 rfl rfl
          (by rw [hs]; exact Nat.zero_le _) (by intro h'; rw [hs]; rfl)
          (fun srank trank _ => Nat.le_of_eq (Mtot_congr srank trank hset2 rfl rfl rfl))
      exact ⟨b, svt', heq, hcomp.1, hcomp.2⟩
    constructor
    · refine ⟨hl1, hl2, ?_, hl4, ?_, ?_, ?_⟩
      · show ((svt.included_transitions.set ix false).set ix true).length
          = svt.max_ix + 1
        rw [hset2]; exact hl3
      · show shrinkIxOkAux _ (if ix = 0 then Shrink.Transition 0
          else Shrink.DeleteTransition (ix - 1))
        by_cases hix0 : ix = 0
        · rw [if_pos hix0]
          exact Nat.zero_le _
        · rw [if_neg hix0]
          refine ⟨?_, fun j hj => ?_⟩
          · show ix - 1 ≤ svt.max_ix
            omega
          · show ((svt.included_transitions.set ix false).set ix true).getD j false = true
            rw [hset2]
            exact hdel j (by omega)
      · intro i hi hsi
        show ((svt.included_transitions.set ix false).set ix true).getD i false = true
        rw [hset2]
        exact hinv1 i hi hsi
      · intro i hi hst
        exact hinv2 i hi hst
    · by_cases hix0 : ix = 0
      · subst hix0
        have hμm : muTotal (deleteRestored (deleteApplied svt 0) 0)
            ≤ 2 * ((svt.shrinkable_transitions.count true
                + srCount svt.included_transitions svt.acceptable_transitions)
              * (svt.max_ix + 3) + (svt.max_ix + 2)) + 4 := by
          show 2 * ((svt.shrinkable_transitions.count true
              + srCount ((svt.included_transitions.set 0 false).set 0 true)
                svt.acceptable_transitions) * (svt.max_ix + 3)
            + distToShrinkable svt.shrinkable_transitions svt.max_ix
                (svt.max_ix + 2) 0) + 4 ≤ _
          rw [hset2]
          have hd := dist_le_fuel svt.shrinkable_transitions svt.max_ix
            (svt.max_ix + 2) 0
          omega
        omega
      · obtain ⟨k, rfl⟩ : ∃ k, ix = k + 1 := ⟨ix - 1, by omega⟩
        have hμm : muTotal (deleteRestored (deleteApplied svt (k + 1)) (k + 1))
            = 2 * k + 4 + (2 * ((svt.shrinkable_transitions.count true
                + srCount svt.included_transitions svt.acceptable_transitions)
              * (svt.max_ix + 3) + (svt.max_ix + 2)) + 4) := by
          show 2 * k + 4 + (2 * ((svt.shrinkable_transitions.count true
              + srCount ((svt.included_transitions.set (k + 1) false).set (k + 1) true)
                svt.acceptable_transitions) * (svt.max_ix + 3)
            + (svt.max_ix + 2)) + 4) = _
          rw [hset2]
        omega

/-- Advancing the Simplify-phase scan position past a non-shrinkable slot:
the cyclic distance to the next shrinkable slot strictly decreases, so the
recursive call completes and its facts transfer back. -/
theorem main_step_advance [Inhabited τt] (ops : Ops State Transition σt τt)
    (n : Nat)
    (IHtry : ∀ svt : SVT State Transition σt τt, INV svt → muTotal svt < n →
      ∃ b svt', try_simplifyF ops n svt = some (b, svt') ∧
        StepFacts ops svt svt' b ∧
        (accNewlyAccepted svt svt' → 1 ≤ rankOf svt'.shrink))
    (svt : SVT State Transition σt τt) (ix : Nat)
    (hs : svt.shrink = .Transition ix) (hinv : INV svt)
    (hmu : muTotal svt < n + 1)
    (hsfalse : svt.shrinkable_transitions.getD ix false = false)
    (hc : ¬ svt.shrinkable_transitions.count true = 0) :
    ∃ b svt', try_simplifyF ops n
        { svt with shrink := .Transition (wrapNext svt.max_ix ix) } = some (b, svt') ∧
      StepFacts ops svt svt' b ∧
      (accNewlyAccepted svt svt' → 1 ≤ rankOf svt'.shrink) := by
  obtain ⟨hl1, hl2, hl3, hl4, hsix, hinv1, hinv2⟩ := hinv
  unfold shrinkIxOk at hsix
  rw [hs] at hsix
  have hixm : ix ≤ svt.max_ix := hsix
  have hμ : muTotal svt = muLoop svt ix := by
    unfold muTotal
    rw [hs]
  have hex : ∃ j, j ≤ svt.max_ix ∧ svt.shrinkable_transitions.getD j false = true := by
    obtain ⟨j, hjl, hjt⟩ := exists_true_of_count_pos (Nat.pos_of_ne_zero hc)
    exact ⟨j, by omega, hjt⟩
  have e2 : muTotal svt = 2 * ((svt.shrinkable_transitions.count true
      + srCount svt.included_transitions svt.acceptable_transitions)
    * (svt.max_ix + 3)
    + distToShrinkable svt.shrinkable_transitions svt.max_ix (svt.max_ix + 2) ix)
    + 4 := hμ.trans rfl
  have e1 : muTotal { svt with shrink := Shrink.Transition (wrapNext svt.max_ix ix) }
      = 2 * ((svt.shrinkable_transitions.count true
          + srCount svt.included_transitions svt.acceptable_transitions)
        * (svt.max_ix + 3)
        + distToShrinkable svt.shrinkable_transitions svt.max_ix (svt.max_ix + 2)
            (wrapNext svt.max_ix ix)) + 4 := rfl
  have hD := dist_advance hsfalse hixm hex
  have hinvmid : INV { svt with shrink := Shrink.Transition (wrapNext svt.max_ix ix) } :=
    ⟨hl1, hl2, hl3, hl4, wrapNext_le hixm, hinv1, hinv2⟩
  obtain ⟨b, svt', heq, hf, hstr⟩ := IHtry _ hinvmid (by omega)
  have hrk0 : rankOf ({ svt with
        shrink := Shrink.Transition (wrapNext svt.max_ix ix) } :
      SVT State Transition σt τt).shrink = 0 → rankOf svt.shrink = 0 :=
    fun h0 => absurd (show (1 : Nat) = 0 from h0) (by omega)
  have hcomp : StepFacts ops svt svt' b ∧
      (accNewlyAccepted svt svt' → 1 ≤ rankOf svt'.shrink) :=
    stepFacts_comp ops hf hstr rfl rfl rfl rfl
      (by rw [hs]; exact Nat.le_refl 1) hrk0
      (fun srank trank _ => Nat.le_of_eq (Mtot_congr srank trank rfl rfl rfl rfl))
  exact ⟨b, svt', heq, hcomp.1, hcomp.2⟩

/-- The Simplify phase of `try_simplify`: the `while let Transition(ix)`
loop.  Every branch either completes directly or re-enters with a smaller
measure, and all branches preserve the invariant and the per-call facts. -/
theorem main_step_transition [Inhabited τt] (ops : Ops State Transition σt τt)
    (n : Nat)
    (IHtry : ∀ svt : SVT State Transition σt τt, INV svt → muTotal svt < n →
      ∃ b svt', try_simplifyF ops n svt = some (b, svt') ∧
        StepFacts ops svt svt' b ∧
        (accNewlyAccepted svt svt' → 1 ≤ rankOf svt'.shrink))
    (IHsimp : ∀ svt : SVT State Transition σt τt, INV svt → muTotal svt + 1 < n →
      ∃ b svt', simplifyF ops n svt = some (b, svt') ∧ StepFacts ops svt svt' b)
    (svt : SVT State Transition σt τt) (ix : Nat)
    (hs : svt.shrink = .Transition ix) (hinv : INV svt)
    (hmu : muTotal svt < n + 1) :
    ∃ b svt', try_simplifyF ops (n + 1) svt = some (b, svt') ∧
      StepFacts ops svt svt' b ∧
      (accNewlyAccepted svt svt' → 1 ≤ rankOf svt'.shrink) := by
  have hinv0 := hinv
  obtain ⟨hl1, hl2, hl3, hl4, hsix, hinv1, hinv2⟩ := hinv0
  have hixm : ix ≤ svt.max_ix := by
    unfold shrinkIxOk at hsix
    rw [hs] at hsix
    exact hsix
  have hμ : muTotal svt = muLoop svt ix := by
    unfold muTotal
    rw [hs]
  by_cases hc : svt.shrinkable_transitions.count true = 0
  · -- no shrinkable slot is left: move to the InitialState phase
    rw [try_simplify_transition_count0 ops svt ix n hs hc]
    have hinvmid : INV { svt with shrink := Shrink.InitialState } :=
      ⟨hl1, hl2, hl3, hl4, trivial, hinv1, hinv2⟩
    have hmumid : muTotal { svt with shrink := Shrink.InitialState } < n := by
      have h2 : muTotal { svt with shrink := Shrink.InitialState } = 2 := rfl
      have h4 : muTotal svt = 2 * ((svt.shrinkable_transitions.count true
          + srCount svt.included_transitions svt.acceptable_transitions)
        * (svt.max_ix + 3)
        + distToShrinkable svt.shrinkable_transitions svt.max_ix (svt.max_ix + 2) ix)
        + 4 := hμ.trans rfl
      omega
    obtain ⟨b, svt', heq, hf, hstr⟩ := IHtry _ hinvmid hmumid
    have hrk0A : rankOf ({ svt with shrink := Shrink.InitialState } :
        SVT State Transition σt τt).shrink = 0 → rankOf svt.shrink = 0 :=
      fun h0 => absurd (show (2 : Nat) = 0 from h0) (by omega)
    have hcomp : StepFacts ops svt svt' b ∧
        (accNewlyAccepted svt svt' → 1 ≤ rankOf svt'.shrink) :=
      stepFacts_comp ops hf hstr rfl rfl rfl rfl
        (by rw [hs]; show (1 : Nat) ≤ 2; omega) hrk0A
        (fun srank trank _ => Nat.le_of_eq (Mtot_congr srank trank rfl rfl rfl rfl))
    exact ⟨b, svt', heq, hcomp.1, hcomp.2⟩
  · have hex : ∃ j, j ≤ svt.max_ix ∧
        svt.shrinkable_transitions.getD j false = true := by
      obtain ⟨j, hjl, hjt⟩ := exists_true_of_count_pos (Nat.pos_of_ne_zero hc)
      exact ⟨j, by omega, hjt⟩
    by_cases hi : svt.included_transitions.getD ix false = true
    · -- the slot is included
      have hlt3 : ix < svt.transitions.length := by omega
      have hlt2 : ix < svt.acceptable_transitions.length := by omega
      have htr : svt.transitions[ix]? = some (svt.transitions.getD ix default) := by
        rw [List.getElem?_eq_getElem hlt3, List.getD_eq_getElem?_getD,
          List.getElem?_eq_getElem hlt3]
        rfl
      rcases hq : svt.acceptable_transitions[ix]? with _ | ⟨q1, q2⟩
      · rw [List.getElem?_eq_getElem hlt2] at hq
        exact Option.noConfusion hq
      · by_cases hsr : q1 = TransitionState.SimplifyRejected
        · -- already simplified and rejected: skip the slot
          subst hsr
          rw [try_simplify_transition_simprej ops svt ix n q2 hs hc hi hq]
          rw [next_shrink_eq_wrap]
          have hsfalse : svt.shrinkable_transitions.getD ix false = false := by
            refine hinv2 ix (by omega) ?_
            unfold statusAt
            rw [hq]
            rfl
          exact main_step_advance ops n IHtry svt ix hs hinv hmu hsfalse hc
        · have hnrej : (match svt.acceptable_transitions[ix]? with
              | some (.SimplifyRejected, _) => true
              | _ => false) = false := by
            rw [hq]
            cases q1 with
            | Accepted => rfl
            | SimplifyRejected => exact absurd rfl hsr
            | ComplicateRejected => rfl
          by_cases hprog : (ops.tSimplify (svt.transitions.getD ix default)).1 = true
          · by_cases hchk : check_acceptable ops
                { svt with
                  transitions := svt.transitions.set ix
                    (ops.tSimplify (svt.transitions.getD ix default)).2
                  last_shrink := some (Shrink.Transition ix) } (some ix) = true
            · -- progress, and the replay accepts: record the accepted slot
              rw [try_simplify_transition_prog_acc ops svt ix n hs hc hi hnrej
                hprog hchk]
              refine ⟨true, _, rfl, ?_, fun _ => ?_⟩
              · refine
                  { inv := ?_
                    rank_mono := Nat.le_refl _
                    lvis_change := fun h => absurd rfl h
                    lvis_nacc := fun h => absurd rfl h
                    incl_change := fun h => absurd rfl h
                    acc_entry := fun _ => Or.inl (by rw [hs]; exact Nat.le_refl 1)
                    acc_post := fun _ => Or.inl ?_
                    init_mono := id
                    m_dec := fun srank trank hr => ?_ }
                · refine ⟨?_, ?_, hl3, hl4, ?_, hinv1, ?_⟩
                  · show (svt.transitions.set ix
                        (ops.tSimplify (svt.transitions.getD ix default)).2).length
                      = svt.max_ix + 1
                    rw [List.length_set]
                    exact hl1
                  · show (svt.acceptable_transitions.set ix (TransitionState.Accepted,
                        ops.tCurrent ((svt.transitions.set ix
                          (ops.tSimplify (svt.transitions.getD ix default)).2).getD
                            ix default))).length = svt.max_ix + 1
                    rw [List.length_set]
                    exact hl2
                  · exact (shrinkIxOkAux_congr rfl rfl svt.shrink).mpr hsix
                  · intro i hi2 hst
                    by_cases hij : i = ix
                    · subst hij
                      have hst' : ((svt.acceptable_transitions.set i
                          (TransitionState.Accepted,
                            ops.tCurrent ((svt.transitions.set i
                              (ops.tSimplify (svt.transitions.getD i default)).2).getD
                                i default)))[i]?).map Prod.fst
                          = some TransitionState.SimplifyRejected := hst
                      rw [List.getElem?_set_self (by omega)] at hst'
                      simp at hst'
                    · refine hinv2 i hi2 ?_
                      have hst' : ((svt.acceptable_transitions.set ix
                          (TransitionState.Accepted,
                            ops.tCurrent ((svt.transitions.set ix
                              (ops.tSimplify (svt.transitions.getD ix default)).2).getD
                                ix default)))[i]?).map Prod.fst
                          = some TransitionState.SimplifyRejected := hst
                      rw [List.getElem?_set_ne (fun hcx => hij hcx.symm)] at hst'
                      exact hst'
                · show 1 ≤ rankOf svt.shrink
                  rw [hs]
                  exact Nat.le_refl 1
                · have hq2sum := sum_map_set trank svt.transitions ix
                    (ops.tSimplify (svt.transitions.getD ix default)).2
                    (svt.transitions.getD ix default) htr
                  have hltr := hr.tSimp_lt (svt.transitions.getD ix default) hprog
                  have hset := rejCount_set_acc svt.included_transitions
                    svt.acceptable_transitions ix
                    (TransitionState.Accepted,
                      ops.tCurrent ((svt.transitions.set ix
                        (ops.tSimplify (svt.transitions.getD ix default)).2).getD
                          ix default)) (q1, q2) hq
                  have hzero : (if svt.included_transitions.getD ix false &&
                      isRejected ((TransitionState.Accepted : TransitionState),
                        ops.tCurrent ((svt.transitions.set ix
                          (ops.tSimplify (svt.transitions.getD ix default)).2).getD
                            ix default)).1
                      then 1 else 0) = 0 := by
                    rw [hi]; rfl
                  rw [hzero] at hset
                  constructor
                  · show svt.included_transitions.count true + srank svt.initial_state
                        + 2 * ((svt.transitions.set ix
                            (ops.tSimplify (svt.transitions.getD ix default)).2).map
                              trank).sum
                        + rejCount svt.included_transitions
                            (svt.acceptable_transitions.set ix (TransitionState.Accepted,
                              ops.tCurrent ((svt.transitions.set ix
                                (ops.tSimplify (svt.transitions.getD ix default)).2).getD
                                  ix default)))
                      ≤ svt.included_transitions.count true + srank svt.initial_state
                        + 2 * (svt.transitions.map trank).sum
                        + rejCount svt.included_transitions svt.acceptable_transitions
                    omega
                  · intro _
                    show svt.included_transitions.count true + srank svt.initial_state
                        + 2 * ((svt.transitions.set ix
                            (ops.tSimplify (svt.transitions.getD ix default)).2).map
                              trank).sum
                        + rejCount svt.included_transitions
                            (svt.acceptable_transitions.set ix (TransitionState.Accepted,
                              ops.tCurrent ((svt.transitions.set ix
                                (ops.tSimplify (svt.transitions.getD ix default)).2).getD
                                  ix default)))
                      < svt.included_transitions.count true + srank svt.initial_state
                        + 2 * (svt.transitions.map trank).sum
                        + rejCount svt.included_transitions svt.acceptable_transitions
                    omega
              · show 1 ≤ rankOf svt.shrink
                rw [hs]
                exact Nat.le_refl 1
            · -- progress, but the replay rejects: mark the slot and retry
              have hchk' : check_acceptable ops
                  { svt with
                    transitions := svt.transitions.set ix
                      (ops.tSimplify (svt.transitions.getD ix default)).2
                    last_shrink := some (Shrink.Transition ix) } (some ix) = false := by
                revert hchk
                cases check_acceptable ops
                  { svt with
                    transitions := svt.transitions.set ix
                      (ops.tSimplify (svt.transitions.getD ix default)).2
                    last_shrink := some (Shrink.Transition ix) } (some ix) <;> simp
              rw [try_simplify_transition_prog_rej ops svt ix n hs hc hi hnrej
                hprog hchk']
              rw [next_shrink_eq_wrap]
              have hq2' : ({ svt with
                  transitions := svt.transitions.set ix
                    (ops.tSimplify (svt.transitions.getD ix default)).2
                  last_shrink := some (Shrink.Transition ix) } :
                SVT State Transition σt τt).acceptable_transitions[ix]?
                  = some (q1, q2) := hq
              rcases setStatusAt_cases { svt with
                  transitions := svt.transitions.set ix
                    (ops.tSimplify (svt.transitions.getD ix default)).2
                  last_shrink := some (Shrink.Transition ix) } ix
                  TransitionState.SimplifyRejected with ⟨_, hnone⟩ | ⟨p, hp, heqS⟩
              · rw [hq2'] at hnone
                exact Option.noConfusion hnone
              · obtain rfl : p = (q1, q2) := Option.some_inj.mp (hp.symm.trans hq2')
                rw [heqS]
                have hinv4 : INV ({ svt with
                    transitions := svt.transitions.set ix
                      (ops.tSimplify (svt.transitions.getD ix default)).2
                    acceptable_transitions := svt.acceptable_transitions.set ix
                      (TransitionState.SimplifyRejected, q2)
                    shrinkable_transitions := svt.shrinkable_transitions.set ix false
                    shrink := Shrink.Transition (wrapNext svt.max_ix ix)
                    last_shrink := some (Shrink.Transition ix) } :
                  SVT State Transition σt τt) := by
                  refine ⟨?_, ?_, hl3, ?_, wrapNext_le hixm, ?_, ?_⟩
                  · show (svt.transitions.set ix
                        (ops.tSimplify (svt.transitions.getD ix default)).2).length
                      = svt.max_ix + 1
                    rw [List.length_set]
                    exact hl1
                  · show (svt.acceptable_transitions.set ix
                        (TransitionState.SimplifyRejected, q2)).length = svt.max_ix + 1
                    rw [List.length_set]
                    exact hl2
                  · show (svt.shrinkable_transitions.set ix false).length
                      = svt.max_ix + 1
                    rw [List.length_set]
                    exact hl4
                  · intro i hi2 hsi
                    have hsi' : (svt.shrinkable_transitions.set ix false).getD i false
                        = true := hsi
                    by_cases hij : i = ix
                    · subst hij
                      rw [getD_set_self _ (by omega :
                        i < svt.shrinkable_transitions.length)] at hsi'
                      exact absurd hsi' (by simp)
                    · rw [getD_set_ne _ (fun hcx => hij hcx.symm)] at hsi'
                      exact hinv1 i hi2 hsi'
                  · intro i hi2 hst
                    show (svt.shrinkable_transitions.set ix false).getD i false = false
                    by_cases hij : i = ix
                    · subst hij
                      rw [getD_set_self _ (by omega :
                        i < svt.shrinkable_transitions.length)]
                    · rw [getD_set_ne _ (fun hcx => hij hcx.symm)]
                      refine hinv2 i hi2 ?_
                      have hst' : ((svt.acceptable_transitions.set ix
                          (TransitionState.SimplifyRejected, q2))[i]?).map Prod.fst
                          = some TransitionState.SimplifyRejected := hst
                      rw [List.getElem?_set_ne (fun hcx => hij hcx.symm)] at hst'
                      exact hst'
                have hμ4 : muTotal ({ svt with
                    transitions := svt.transitions.set ix
                      (ops.tSimplify (svt.transitions.getD ix default)).2
                    acceptable_transitions := svt.acceptable_transitions.set ix
                      (TransitionState.SimplifyRejected, q2)
                    shrinkable_transitions := svt.shrinkable_transitions.set ix false
                    shrink := Shrink.Transition (wrapNext svt.max_ix ix)
                    last_shrink := some (Shrink.Transition ix) } :
                  SVT State Transition σt τt) + 1 < n := by
                  have e4 : muTotal ({ svt with
                      transitions := svt.transitions.set ix
                        (ops.tSimplify (svt.transitions.getD ix default)).2
                      acceptable_transitions := svt.acceptable_transitions.set ix
                        (TransitionState.SimplifyRejected, q2)
                      shrinkable_transitions := svt.shrinkable_transitions.set ix false
                      shrink := Shrink.Transition (wrapNext svt.max_ix ix)
                      last_shrink := some (Shrink.Transition ix) } :
                    SVT State Transition σt τt)
                      = 2 * (((svt.shrinkable_transitions.set ix false).count true
                          + srCount svt.included_transitions
                              (svt.acceptable_transitions.set ix
                                (TransitionState.SimplifyRejected, q2)))
                        * (svt.max_ix + 3)
                        + distToShrinkable (svt.shrinkable_transitions.set ix false)
                            svt.max_ix (svt.max_ix + 2) (wrapNext svt.max_ix ix))
                      + 4 := rfl
                  have e2 : muTotal svt = 2 * ((svt.shrinkable_transitions.count true
                      + srCount svt.included_transitions svt.acceptable_transitions)
                    * (svt.max_ix + 3)
                    + distToShrinkable svt.shrinkable_transitions svt.max_ix
                        (svt.max_ix + 2) ix) + 4 := hμ.trans rfl
                  have hsr4 := srCount_set_acc svt.included_transitions
                    svt.acceptable_transitions ix
                    (TransitionState.SimplifyRejected, q2) (q1, q2) hq
                  have hq1f : isSimpRej ((q1, q2) :
                      TransitionState × Transition).1 = false := by
                    cases q1 with
                    | Accepted => rfl
                    | SimplifyRejected => exact absurd rfl hsr
                    | ComplicateRejected => rfl
                  have hone : (if svt.included_transitions.getD ix false &&
                      !(isSimpRej ((q1, q2) : TransitionState × Transition).1)
                      then 1 else 0) = 1 := by
                    rw [hi, hq1f]
                    rfl
                  have hz : (if svt.included_transitions.getD ix false &&
                      !(isSimpRej ((TransitionState.SimplifyRejected, q2) :
                        TransitionState × Transition).1)
                      then 1 else 0) = 0 := by
                    rw [hi]
                    rfl
                  rw [hone, hz] at hsr4
                  have hC4 := count_true_set_false_le svt.shrinkable_transitions ix
                  have hD4 := dist_le_fuel (svt.shrinkable_transitions.set ix false)
                    svt.max_ix (svt.max_ix + 2) (wrapNext svt.max_ix ix)
                  have hexp : ((svt.shrinkable_transitions.set ix false).count true
                      + srCount svt.included_transitions
                          (svt.acceptable_transitions.set ix
                            (TransitionState.SimplifyRejected, q2)) + 1)
                    * (svt.max_ix + 3)
                      = ((svt.shrinkable_transitions.set ix false).count true
                          + srCount svt.included_transitions
                              (svt.acceptable_transitions.set ix
                                (TransitionState.SimplifyRejected, q2)))
                        * (svt.max_ix + 3) + (svt.max_ix + 3) := by ring
                  have hmul : ((svt.shrinkable_transitions.set ix false).count true
                      + srCount svt.included_transitions
                          (svt.acceptable_transitions.set ix
                            (TransitionState.SimplifyRejected, q2)) + 1)
                    * (svt.max_ix + 3)
                      ≤ (svt.shrinkable_transitions.count true
                          + srCount svt.included_transitions svt.acceptable_transitions)
                        * (svt.max_ix + 3) :=
                    Nat.mul_le_mul_right _ (by omega)
                  omega
                obtain ⟨b, svt', heq, hf⟩ := IHsimp _ hinv4 hμ4
                have hstr4 : accNewlyAccepted ({ svt with
                    transitions := svt.transitions.set ix
                      (ops.tSimplify (svt.transitions.getD ix default)).2
                    acceptable_transitions := svt.acceptable_transitions.set ix
                      (TransitionState.SimplifyRejected, q2)
                    shrinkable_transitions := svt.shrinkable_transitions.set ix false
                    shrink := Shrink.Transition (wrapNext svt.max_ix ix)
                    last_shrink := some (Shrink.Transition ix) } :
                  SVT State Transition σt τt) svt' → 1 ≤ rankOf svt'.shrink := by
                  intro h
                  rcases hf.acc_post h with h1 | ⟨_, h2⟩
                  · exact h1
                  · rw [h2]
                    exact Nat.le_refl 1
                have haccconv : accNewlyAccepted svt svt' →
                    accNewlyAccepted ({ svt with
                      transitions := svt.transitions.set ix
                        (ops.tSimplify (svt.transitions.getD ix default)).2
                      acceptable_transitions := svt.acceptable_transitions.set ix
                        (TransitionState.SimplifyRejected, q2)
                      shrinkable_transitions := svt.shrinkable_transitions.set ix false
                      shrink := Shrink.Transition (wrapNext svt.max_ix ix)
                      last_shrink := some (Shrink.Transition ix) } :
                    SVT State Transition σt τt) svt' := by
                  rintro ⟨k, w', h1, h2⟩
                  refine ⟨k, w', h1, ?_⟩
                  intro hcon
                  by_cases hk : k = ix
                  · subst hk
                    have hcon' : (svt.acceptable_transitions.set k
                        (TransitionState.SimplifyRejected, q2))[k]?
                        = some (TransitionState.Accepted, w') := hcon
                    rw [List.getElem?_set_self (by omega)] at hcon'
                    exact absurd hcon' (by simp)
                  · have hcon' : (svt.acceptable_transitions.set ix
                        (TransitionState.SimplifyRejected, q2))[k]?
                        = some (TransitionState.Accepted, w') := hcon
                    rw [List.getElem?_set_ne (fun hcx => hk hcx.symm)] at hcon'
                    exact h2 hcon'
                have hMd : ∀ (srank : σt → Nat) (trank : τt → Nat),
                    RankedOps ops srank trank →
                    Mtot srank trank ({ svt with
                      transitions := svt.transitions.set ix
                        (ops.tSimplify (svt.transitions.getD ix default)).2
                      acceptable_transitions := svt.acceptable_transitions.set ix
                        (TransitionState.SimplifyRejected, q2)
                      shrinkable_transitions := svt.shrinkable_transitions.set ix false
                      shrink := Shrink.Transition (wrapNext svt.max_ix ix)
                      last_shrink := some (Shrink.Transition ix) } :
                    SVT State Transition σt τt) < Mtot srank trank svt := by
                  intro srank trank hr
                  have hq2sum := sum_map_set trank svt.transitions ix
                    (ops.tSimplify (svt.transitions.getD ix default)).2
                    (svt.transitions.getD ix default) htr
                  have hltr := hr.tSimp_lt (svt.transitions.getD ix default) hprog
                  have hset := rejCount_set_acc svt.included_transitions
                    svt.acceptable_transitions ix
                    (TransitionState.SimplifyRejected, q2) (q1, q2) hq
                  have hone : (if svt.included_transitions.getD ix false &&
                      isRejected ((TransitionState.SimplifyRejected, q2) :
                        TransitionState × Transition).1
                      then 1 else 0) = 1 := by
                    rw [hi]
                    rfl
                  rw [hone] at hset
                  show svt.included_transitions.count true + srank svt.initial_state
                      + 2 * ((svt.transitions.set ix
                          (ops.tSimplify (svt.transitions.getD ix default)).2).map
                            trank).sum
                      + rejCount svt.included_transitions
                          (svt.acceptable_transitions.set ix
                            (TransitionState.SimplifyRejected, q2))
                    < svt.included_transitions.count true + srank svt.initial_state
                      + 2 * (svt.transitions.map trank).sum
                      + rejCount svt.included_transitions svt.acceptable_transitions
                  omega
                refine ⟨b, svt', heq, ?_, fun hacc => hstr4 (haccconv hacc)⟩
                exact
                  { inv := hf.inv
                    rank_mono := by rw [hs]; exact hf.rank_mono
                    lvis_change := fun h => hf.lvis_change h
                    lvis_nacc := fun h hacc => hf.lvis_nacc h (haccconv hacc)
                    incl_change := fun h =>
                      absurd (show (1 : Nat) = 0 from (hf.incl_change h).1) (by omega)
                    acc_entry := fun _ => Or.inl (by rw [hs]; exact Nat.le_refl 1)
                    acc_post := fun hacc => Or.inl (hstr4 (haccconv hacc))
                    init_mono := fun h => hf.init_mono h
                    m_dec := fun srank trank hr => by
                      have h1 := (hf.m_dec srank trank hr).1
                      have h2 := hMd srank trank hr
                      exact ⟨by omega, fun _ => by omega⟩ }
          · -- the atomic tree reports no progress: mark the slot unshrinkable
            have hprog' : (ops.tSimplify (svt.transitions.getD ix default)).1
                = false := by
              revert hprog
              cases (ops.tSimplify (svt.transitions.getD ix default)).1 <;> simp
            rw [try_simplify_transition_noprog ops svt ix n hs hc hi hnrej hprog']
            rw [next_shrink_eq_wrap]
            have hinvD : INV ({ svt with
                transitions := svt.transitions.set ix
                  (ops.tSimplify (svt.transitions.getD ix default)).2
                shrinkable_transitions := svt.shrinkable_transitions.set ix false
                shrink := Shrink.Transition (wrapNext svt.max_ix ix) } :
              SVT State Transition σt τt) := by
              refine ⟨?_, hl2, hl3, ?_, wrapNext_le hixm, ?_, ?_⟩
              · show (svt.transitions.set ix
                    (ops.tSimplify (svt.transitions.getD ix default)).2).length
                  = svt.max_ix + 1
                rw [List.length_set]
                exact hl1
              · show (svt.shrinkable_transitions.set ix false).length = svt.max_ix + 1
                rw [List.length_set]
                exact hl4
              · intro i hi2 hsi
                have hsi' : (svt.shrinkable_transitions.set ix false).getD i false
                    = true := hsi
                by_cases hij : i = ix
                · subst hij
                  rw [getD_set_self _ (by omega :
                    i < svt.shrinkable_transitions.length)] at hsi'
                  exact absurd hsi' (by simp)
                · rw [getD_set_ne _ (fun hcx => hij hcx.symm)] at hsi'
                  exact hinv1 i hi2 hsi'
              · intro i hi2 hst
                show (svt.shrinkable_transitions.set ix false).getD i false = false
                by_cases hij : i = ix
                · subst hij
                  rw [getD_set_self _ (by omega :
                    i < svt.shrinkable_transitions.length)]
                · rw [getD_set_ne _ (fun hcx => hij hcx.symm)]
                  exact hinv2 i hi2 hst
            have hμD : muTotal ({ svt with
                transitions := svt.transitions.set ix
                  (ops.tSimplify (svt.transitions.getD ix default)).2
                shrinkable_transitions := svt.shrinkable_transitions.set ix false
                shrink := Shrink.Transition (wrapNext svt.max_ix ix) } :
              SVT State Transition σt τt) < n := by
              have e4 : muTotal ({ svt with
                  transitions := svt.transitions.set ix
                    (ops.tSimplify (svt.transitions.getD ix default)).2
                  shrinkable_transitions := svt.shrinkable_transitions.set ix false
                  shrink := Shrink.Transition (wrapNext svt.max_ix ix) } :
                SVT State Transition σt τt)
                  = 2 * (((svt.shrinkable_transitions.set ix false).count true
                      + srCount svt.included_transitions svt.acceptable_transitions)
                    * (svt.max_ix + 3)
                    + distToShrinkable (svt.shrinkable_transitions.set ix false)
                        svt.max_ix (svt.max_ix + 2) (wrapNext svt.max_ix ix))
                  + 4 := rfl
              have e2 : muTotal svt = 2 * ((svt.shrinkable_transitions.count true
                  + srCount svt.included_transitions svt.acceptable_transitions)
                * (svt.max_ix + 3)
                + distToShrinkable svt.shrinkable_transitions svt.max_ix
                    (svt.max_ix + 2) ix) + 4 := hμ.trans rfl
              by_cases hb : svt.shrinkable_transitions.getD ix false = true
              · have hcnt := count_true_set_false hb
                have hD4 := dist_le_fuel (svt.shrinkable_transitions.set ix false)
                  svt.max_ix (svt.max_ix + 2) (wrapNext svt.max_ix ix)
                have hexp : ((svt.shrinkable_transitions.set ix false).count true
                    + srCount svt.included_transitions svt.acceptable_transitions + 1)
                  * (svt.max_ix + 3)
                    = ((svt.shrinkable_transitions.set ix false).count true
                        + srCount svt.included_transitions svt.acceptable_transitions)
                      * (svt.max_ix + 3) + (svt.max_ix + 3) := by ring
                have hmul : ((svt.shrinkable_transitions.set ix false).count true
                    + srCount svt.included_transitions svt.acceptable_transitions + 1)
                  * (svt.max_ix + 3)
                    = (svt.shrinkable_transitions.count true
                        + srCount svt.included_transitions svt.acceptable_transitions)
                      * (svt.max_ix + 3) := by
                  have hzc : (svt.shrinkable_transitions.set ix false).count true
                      + srCount svt.included_transitions svt.acceptable_transitions + 1
                      = svt.shrinkable_transitions.count true
                        + srCount svt.included_transitions svt.acceptable_transitions := by
                    omega
                  rw [hzc]
                omega
              · have hbf : svt.shrinkable_transitions.getD ix false = false := by
                  revert hb
                  cases svt.shrinkable_transitions.getD ix false <;> simp
                have hno : svt.shrinkable_transitions.set ix false
                    = svt.shrinkable_transitions := set_false_eq_self_of_getD_false hbf
                have hprod : ((svt.shrinkable_transitions.set ix false).count true
                    + srCount svt.included_transitions svt.acceptable_transitions)
                  * (svt.max_ix + 3)
                    = (svt.shrinkable_transitions.count true
                        + srCount svt.included_transitions svt.acceptable_transitions)
                      * (svt.max_ix + 3) := by
                  rw [hno]
                have hdist2 : distToShrinkable (svt.shrinkable_transitions.set ix false)
                    svt.max_ix (svt.max_ix + 2) (wrapNext svt.max_ix ix)
                    = distToShrinkable svt.shrinkable_transitions svt.max_ix
                        (svt.max_ix + 2) (wrapNext svt.max_ix ix) := by
                  rw [hno]
                have hD := dist_advance hbf hixm hex
                omega
            obtain ⟨b, svt', heq, hf, hstr⟩ := IHtry _ hinvD hμD
            have hrk0D : rankOf ({ svt with
                transitions := svt.transitions.set ix
                  (ops.tSimplify (svt.transitions.getD ix default)).2
                shrinkable_transitions := svt.shrinkable_transitions.set ix false
                shrink := Shrink.Transition (wrapNext svt.max_ix ix) } :
              SVT State Transition σt τt).shrink = 0 → rankOf svt.shrink = 0 :=
              fun h0 => absurd (show (1 : Nat) = 0 from h0) (by omega)
            have hcomp : StepFacts ops svt svt' b ∧
                (accNewlyAccepted svt svt' → 1 ≤ rankOf svt'.shrink) :=
              stepFacts_comp ops hf hstr rfl rfl rfl rfl
                (by rw [hs]; exact Nat.le_refl 1) hrk0D
                (fun srank trank hr => by
                  have hq2sum := sum_map_set trank svt.transitions ix
                    (ops.tSimplify (svt.transitions.getD ix default)).2
                    (svt.transitions.getD ix default) htr
                  have hle := hr.tSimp_le (svt.transitions.getD ix default)
                  show svt.included_transitions.count true + srank svt.initial_state
                      + 2 * ((svt.transitions.set ix
                          (ops.tSimplify (svt.transitions.getD ix default)).2).map
                            trank).sum
                      + rejCount svt.included_transitions svt.acceptable_transitions
                    ≤ svt.included_transitions.count true + srank svt.initial_state
                      + 2 * (svt.transitions.map trank).sum
                      + rejCount svt.included_transitions svt.acceptable_transitions
                  omega)
            exact ⟨b, svt', heq, hcomp.1, hcomp.2⟩
    · -- the slot is not included: skip it
      have hi' : svt.included_transitions.getD ix false = false := by
        revert hi
        cases svt.included_transitions.getD ix false <;> simp
      rw [try_simplify_transition_notincl ops svt ix n hs hc hi']
      rw [next_shrink_eq_wrap]
      have hsfalse : svt.shrinkable_transitions.getD ix false = false := by
        cases hb : svt.shrinkable_transitions.getD ix false with
        | false => rfl
        | true =>
          have hit := hinv1 ix (by omega) hb
          rw [hit] at hi'
          exact absurd hi' (by simp)
      exact main_step_advance ops n IHtry svt ix hs hinv hmu hsfalse hc

/-! ## `simplify` preserves absence of an InitialState `last_shrink` -/

/-- Neither `try_simplify` nor `simplify` can ever set
`last_shrink = Some(InitialState)`: the only assignments are
`Some(DeleteTransition _)` in the Delete branch, `Some(Transition _)` in
the Simplify branch, and `None`. -/
theorem simplify_last_shrink_ne_init [Inhabited τt]
    (ops : Ops State Transition σt τt) :
    ∀ fuel : Nat,
      (∀ svt b svt', try_simplifyF ops fuel svt = some (b, svt') →
        svt.last_shrink ≠ some Shrink.InitialState →
        svt'.last_shrink ≠ some Shrink.InitialState) ∧
      (∀ svt b svt', simplifyF ops fuel svt = some (b, svt') →
        svt.last_shrink ≠ some Shrink.InitialState →
        svt'.last_shrink ≠ some Shrink.InitialState) := by
  intro fuel
  induction fuel with
  | zero =>
    constructor <;> · intro svt b svt' h hne; exact Option.noConfusion h
  | succ n ih =>
    obtain ⟨ihT, ihS⟩ := ih
    constructor
    · intro svt b svt' h hne
      unfold try_simplifyF at h
      rcases hs : svt.shrink with _ | ix | ix <;> rw [hs] at h <;> simp only at h
      · -- InitialState branch
        split at h
        · split at h
          · injection h with h
            injection h with hb h
            rw [← h]
            exact hne
          · injection h with h
            injection h with hb h
            rw [← h]
            intro hcon
            exact Option.noConfusion hcon
        · injection h with h
          injection h with hb h
          rw [← h]
          exact hne
      · -- DeleteTransition branch
        split at h
        · exact ihT _ _ _ h (by intro hcon; exact Option.noConfusion hcon)
        · injection h with h
          injection h with hb h
          rw [← h]
          show some svt.shrink ≠ some Shrink.InitialState
          rw [hs]
          intro hcon
          injection hcon with hcon
          exact Shrink.noConfusion hcon
      · -- Transition branch
        split at h
        · exact ihT _ _ _ h hne
        · split at h
          · exact ihT _ _ _ h hne
          · split at h
            · exact ihT _ _ _ h hne
            · split at h
              · split at h
                · injection h with h
                  injection h with hb h
                  rw [← h]
                  simp [setAcceptedAt]
                · refine ihS _ _ _ h ?_
                  simp [setStatusAt_last_shrink]
              · exact ihT _ _ _ h hne
    · intro svt b svt' h hne
      unfold simplifyF at h
      split at h
      · exact ihT _ _ _ h hne
      · split at h
        · injection h with h
          rcases findAcceptableGo_cases ops svt _ (svt.max_ix + 2) _ with hc | ⟨j, _, _, hc⟩ <;>
            rw [show try_to_find_acceptable_transition ops svt _
                = findAcceptableGo ops svt _ (svt.max_ix + 2) _ from rfl, hc] at h <;>
            · injection h with hb h
              rw [← h]
              exact hne
        · injection h with h
          injection h with hb h
          rw [← h]
          exact hne

/-! ## Lemmas about the generation loop -/

/-- A tree returned by the rejection loop passes the pre-conditions in the
state it was drawn for. -/
theorem drawAccepted_pre (ops : Ops State Transition σt τt)
    (pre : State → Transition → Bool) (draw : Nat → State → τt) :
    ∀ budget k state b k2 tree,
      drawAccepted ops pre draw budget k state = some (b, k2, tree) →
      pre state (ops.tCurrent tree) = true := by
  intro budget
  induction budget with
  | zero =>
    intro k state b k2 tree h
    unfold drawAccepted at h
    by_cases hp : pre state (ops.tCurrent (draw k state)) = true
    · rw [if_pos hp] at h
      obtain ⟨rfl, rfl, rfl⟩ : b = 0 ∧ k2 = k + 1 ∧ tree = draw k state := by
        injection h with h2
        injection h2 with ha hb
        injection hb with hc hd
        exact ⟨ha.symm, hc.symm, hd.symm⟩
      exact hp
    · rw [if_neg hp] at h
      exact Option.noConfusion h
  | succ n ih =>
    intro k state b k2 tree h
    unfold drawAccepted at h
    by_cases hp : pre state (ops.tCurrent (draw k state)) = true
    · rw [if_pos hp] at h
      obtain ⟨rfl, rfl, rfl⟩ : b = n + 1 ∧ k2 = k + 1 ∧ tree = draw k state := by
        injection h with h2
        injection h2 with ha hb
        injection hb with hc hd
        exact ⟨ha.symm, hc.symm, hd.symm⟩
      exact hp
    · rw [if_neg hp] at h
      exact ih (k + 1) state b k2 tree h

/-- The generation loop appends exactly `remaining` accepted transitions,
whose replay from the entry state passes all pre-conditions. -/
theorem genLoop_spec (ops : Ops State Transition σt τt)
    (pre : State → Transition → Bool) (nxt : State → Transition → State)
    (draw : Nat → State → τt) :
    ∀ remaining budget k state trs acc out,
      genLoop ops pre nxt draw remaining budget k state trs acc = some out →
      ∃ ts : List Transition,
        out.2 = acc ++ ts.map (fun t => (TransitionState.Accepted, t)) ∧
        ts.length = remaining ∧
        out.1.length = trs.length + remaining ∧
        replayOk pre nxt state ts = true := by
  intro remaining
  induction remaining with
  | zero =>
    intro budget k state trs acc out h
    refine ⟨[], ?_, rfl, ?_, rfl⟩ <;> · injection h with h; rw [← h]; simp
  | succ r ih =>
    intro budget k state trs acc out h
    unfold genLoop at h
    cases hd : drawAccepted ops pre draw budget k state with
    | none => rw [hd] at h; exact Option.noConfusion h
    | some p =>
      obtain ⟨b, k2, tree⟩ := p
      rw [hd] at h
      obtain ⟨ts', hacc, hlen, htlen, hreplay⟩ :=
        ih b k2 (nxt state (ops.tCurrent tree)) (trs ++ [tree])
          (acc ++ [(.Accepted, ops.tCurrent tree)]) out h
      refine ⟨ops.tCurrent tree :: ts', ?_, by simp [hlen], by simp at htlen ⊢; omega, ?_⟩
      · rw [hacc]
        simp
      · show (if pre state (ops.tCurrent tree) then _ else false) = true
        rw [drawAccepted_pre ops pre draw budget k state b k2 tree hd]
        simpa using hreplay

/-- On an all-true included bit-set (with every enumerated index in range)
the included-acceptable collection is just the stored transitions. -/
theorem giatGo_replicate_true [Inhabited τt] (ops : Ops State Transition σt τt)
    (transitions : List τt) (N : Nat) :
    ∀ (acc : List (TransitionState × Transition)) (k : Nat),
      k + acc.length ≤ N →
      giatGo ops transitions (List.replicate N true) none k acc = acc.map (·.2) := by
  intro acc
  induction acc with
  | nil => intro k _; rfl
  | cons p rest ih =>
    intro k hk
    unfold giatGo
    have hget : (List.replicate N true).getD k false = true := by
      rw [List.getD_eq_getElem?_getD, List.getElem?_replicate, if_pos (by simp at hk; omega)]
      rfl
    rw [hget]
    simp only [if_true]
    rw [ih (k + 1) (by simp at hk ⊢; omega)]
    rfl

/-! ## C1: shrink preservation of the precondition invariant -/

/-- **C1** (code bug, evaluation at the failing input).  On the concrete
model, the public call sequence `new_tree; simplify(); complicate();
simplify()` produces a tree whose last `simplify()` returns `true` and whose
`current()` is `(0, [1, 2])`, a pair that does **not** satisfy the
preconditions when replayed (`natPre 0 1 = false` at the very first step):
the InitialState shrink validated the included transitions against the
stale `last_valid_initial_state = 1` and then installed the unvalidated new
initial state `0`. -/
theorem c1_preconditions_violated_after_initial_state_shrink :
    c1run.map (fun p => (p.1, current natOps p.2,
        replayOk natPre natNxt (current natOps p.2).1 (current natOps p.2).2))
      = some (true, (0, [1, 2]), false) := by decide

/-! ## C2: the generation invariant of `new_tree` -/

/-- **C2** (confirmed).  Immediately after a successful `new_tree`,
`current()` returns `(s0, [t1 … tN])` where `N` is the size sampled from
the inclusive range `[min, max]` (the host's `sample_uniform_incl`
guarantees `min ≤ N ≤ max`; its uniformity is a property of the external
runner), `s0` is the current value of the generated initial-state tree, and
replaying the transitions from `s0` satisfies the preconditions at every
step with the state advanced by `apply`. -/
theorem c2_generation_invariant [Inhabited τt] (ops : Ops State Transition σt τt)
    (pre : State → Transition → Bool) (nxt : State → Transition → State)
    (oracle : GenOracle State σt τt) (minSz maxSz : Nat)
    (hmin : minSz ≤ oracle.sampleSize) (hmax : oracle.sampleSize ≤ maxSz)
    (svt : SVT State Transition σt τt)
    (h : new_tree ops pre nxt oracle = some svt) :
    (current ops svt).1 = ops.sCurrent oracle.initTree ∧
    (current ops svt).2.length = oracle.sampleSize ∧
    replayOk pre nxt (current ops svt).1 (current ops svt).2 = true := by
  unfold new_tree at h
  simp only at h
  cases hgen : genLoop ops pre nxt oracle.draw oracle.sampleSize oracle.rejectBudget 0
      (ops.sCurrent oracle.initTree) [] [] with
  | none =>
    rw [hgen] at h
    exact Option.noConfusion h
  | some p =>
    obtain ⟨trs, acc⟩ := p
    rw [hgen] at h
    injection h with h
    obtain ⟨ts, hacc, hlen, htlen, hreplay⟩ :=
      genLoop_spec ops pre nxt oracle.draw oracle.sampleSize oracle.rejectBudget 0
        (ops.sCurrent oracle.initTree) [] [] (trs, acc) hgen
    simp only at hacc htlen
    have hcur2 : (current ops svt).2 = ts := by
      rw [← h]
      show giatGo ops trs (List.replicate oracle.sampleSize true) none 0 acc = ts
      rw [giatGo_replicate_true ops trs oracle.sampleSize acc 0
        (by rw [hacc]; simp [hlen]), hacc]
      simp
    have hcur1 : (current ops svt).1 = ops.sCurrent oracle.initTree := by
      rw [← h]
      rfl
    exact ⟨hcur1, by rw [hcur2, hlen], by rw [hcur1, hcur2]; exact hreplay⟩

/-- **C2** (witness: the concrete `new_tree` run from `c1oracle`, whose
result is `delsvt`). -/
theorem c2_generation_invariant_witness :
    (current natOps delsvt).1 = natOps.sCurrent c1oracle.initTree ∧
    (current natOps delsvt).2.length = c1oracle.sampleSize ∧
    replayOk natPre natNxt (current natOps delsvt).1 (current natOps delsvt).2 = true :=
  c2_generation_invariant natOps natPre natNxt c1oracle 2 2 (by decide) (by decide)
    delsvt rfl

/-! ## C3: behavior of the InitialState shrink phase -/

/-- **C3** (counterexample).  At the concrete state `c3svt` (InitialState
phase, initial tree simplifies `1 → 0` with progress), `try_simplify`
returns `true`, yet afterwards `last_shrink` is **not** `Some(InitialState)`
(the source never assigns it in this branch) and the included transitions
do **not** satisfy the preconditions from the new initial state (the
re-validation used the old `last_valid_initial_state`, not the new one). -/
theorem c3_initial_state_shrink_claim_fails :
    (try_simplifyF natOps 5 c3svt).map (fun p =>
        (p.1, decide (p.2.last_shrink = some .InitialState),
         replayOk natPre natNxt p.2.last_valid_initial_state (current natOps p.2).2))
      = some (true, false, false) := by decide

/-- **C3** (amended).  In the InitialState shrink phase the re-validation
replays the included transitions from the *previous*
`last_valid_initial_state` (`check_acceptable` never reads the
initial-state tree): if the initial-state tree's `simplify()` reports
progress and this validation passes, `last_valid_initial_state` is updated
to the tree's current value, `last_shrink` is left unchanged, and the call
returns `true`; if progress is reported but the validation fails,
`is_initial_state_shrinkable` is set to `false`, `last_shrink` is set to
`None`, and the call returns `false`; if no progress is reported,
`is_initial_state_shrinkable` is set to `false`, `last_shrink` is left
unchanged, and the call returns `false`. -/
theorem c3_initial_state_shrink_behavior [Inhabited τt]
    (ops : Ops State Transition σt τt) (svt : SVT State Transition σt τt)
    (fuel : Nat) (h : svt.shrink = .InitialState) :
    ((ops.sSimplify svt.initial_state).1 = true →
      check_acceptable ops svt none = true →
      try_simplifyF ops (fuel + 1) svt = some (true,
        { svt with
          initial_state := (ops.sSimplify svt.initial_state).2
          last_valid_initial_state := ops.sCurrent (ops.sSimplify svt.initial_state).2 })) ∧
    ((ops.sSimplify svt.initial_state).1 = true →
      check_acceptable ops svt none = false →
      try_simplifyF ops (fuel + 1) svt = some (false,
        { svt with
          initial_state := (ops.sSimplify svt.initial_state).2
          last_shrink := none
          is_initial_state_shrinkable := false })) ∧
    ((ops.sSimplify svt.initial_state).1 = false →
      try_simplifyF ops (fuel + 1) svt = some (false,
        { svt with
          initial_state := (ops.sSimplify svt.initial_state).2
          is_initial_state_shrinkable := false })) := by
  refine ⟨fun h1 h2 => ?_, fun h1 h2 => ?_, fun h1 => ?_⟩ <;>
    simp only [try_simplifyF, h] <;>
    first
      | (simp [h1, h2]; exact h2)
      | simp [h1]

/-- **C3** (witness for the amended theorem, instantiated at `c3svt`). -/
theorem c3_initial_state_shrink_behavior_witness :
    try_simplifyF natOps 5 c3svt = some (true,
      { c3svt with initial_state := 0, last_valid_initial_state := 0 }) := by
  have h := (c3_initial_state_shrink_behavior natOps c3svt 4 rfl).1 (by decide) (by decide)
  exact h

/-! ## C5: the Delete shrink phase -/

/-- **C5** (confirmed).  In the Delete phase at planned index `ix` (with the
slot still included, as the Delete phase guarantees): a simplify step clears
the included bit at `ix`, sets `last_shrink = DeleteTransition ix`, and
advances the plan to `DeleteTransition (ix-1)` if `ix > 0` and otherwise to
`Transition 0` (the Simplify phase at index 0).  If the re-validation
rejects the deletion, the included bit-set is restored exactly,
`last_shrink` is cleared, and the next planned step is retried internally
(the call's result is that of re-running `try_simplify` on the restored
state).  If the re-validation accepts, the slot's shrinkable bit is cleared,
the call returns `true`, and the number of included transitions strictly
decreases. -/
theorem c5_delete_phase_step [Inhabited τt] (ops : Ops State Transition σt τt)
    (svt : SVT State Transition σt τt) (ix fuel : Nat)
    (hsh : svt.shrink = .DeleteTransition ix)
    (hinc : svt.included_transitions.getD ix false = true) :
    ((deleteApplied svt ix).included_transitions.getD ix false = false ∧
     (deleteApplied svt ix).last_shrink = some (.DeleteTransition ix) ∧
     (deleteApplied svt ix).shrink
        = (if ix = 0 then .Transition 0 else .DeleteTransition (ix - 1)) ∧
     (deleteApplied svt ix).included_transitions.count true
        < svt.included_transitions.count true) ∧
    (check_acceptable ops (deleteApplied svt ix) none = true →
      try_simplifyF ops (fuel + 1) svt = some (true,
        { deleteApplied svt ix with
          shrinkable_transitions := svt.shrinkable_transitions.set ix false }) ∧
      ({ deleteApplied svt ix with
          shrinkable_transitions := svt.shrinkable_transitions.set ix false
          : SVT State Transition σt τt }).shrinkable_transitions.getD ix false
        = false) ∧
    (check_acceptable ops (deleteApplied svt ix) none = false →
      try_simplifyF ops (fuel + 1) svt
        = try_simplifyF ops fuel (deleteRestored (deleteApplied svt ix) ix) ∧
      (deleteRestored (deleteApplied svt ix) ix).included_transitions
        = svt.included_transitions ∧
      (deleteRestored (deleteApplied svt ix) ix).last_shrink = none) := by
  have hlt : ix < svt.included_transitions.length := lt_length_of_getD_true hinc
  refine ⟨⟨?_, ?_, ?_, ?_⟩, fun hchk => ⟨?_, ?_⟩, fun hchk => ⟨?_, ?_, ?_⟩⟩
  · exact getD_set_self _ hlt _ _
  · simp [deleteApplied, hsh]
  · rfl
  · have := count_true_set_false hinc
    show (svt.included_transitions.set ix false).count true
        < svt.included_transitions.count true
    omega
  · exact try_simplify_delete_accept ops svt ix fuel hsh hchk
  · by_cases hx : ix < svt.shrinkable_transitions.length
    · exact getD_set_self _ hx _ _
    · show (svt.shrinkable_transitions.set ix false).getD ix false = false
      rw [List.set_eq_of_length_le (by omega), List.getD_eq_getElem?_getD,
        List.getElem?_eq_none (by omega)]
      rfl
  · exact try_simplify_delete_reject ops svt ix fuel hsh hchk
  · exact deleteRestored_included svt hinc
  · rfl

/-- **C5** (witness at `delsvt`, where the delete of index 1 is accepted). -/
theorem c5_delete_phase_step_witness :
    try_simplifyF natOps 10 delsvt = some (true,
      { deleteApplied delsvt 1 with
        shrinkable_transitions := delsvt.shrinkable_transitions.set 1 false }) :=
  (((c5_delete_phase_step natOps delsvt 1 9 rfl (by decide)).2.1) (by decide)).1

/-! ## C6: Delete round-trip via complicate -/

/-- **C6** (confirmed).  After a successful Delete-phase simplify at index
`ix` (the re-validation accepted the deletion), a single `complicate()` call
re-sets both the included and shrinkable bits at `ix`, clears `last_shrink`,
returns `true`, and restores `current()` exactly to its value before the
simplify: equal initial state and equal transition sequence. -/
theorem c6_delete_complicate_round_trip [Inhabited τt]
    (ops : Ops State Transition σt τt) (svt : SVT State Transition σt τt)
    (ix fuel : Nat)
    (hsh : svt.shrink = .DeleteTransition ix)
    (hinc : svt.included_transitions.getD ix false = true)
    (hlens : svt.shrinkable_transitions.length = svt.included_transitions.length)
    (hchk : check_acceptable ops (deleteApplied svt ix) none = true) :
    try_simplifyF ops (fuel + 1) svt = some (true,
      { deleteApplied svt ix with
        shrinkable_transitions := svt.shrinkable_transitions.set ix false }) ∧
    (complicate ops
      { deleteApplied svt ix with
        shrinkable_transitions := svt.shrinkable_transitions.set ix false }).1
      = true ∧
    ((complicate ops
      { deleteApplied svt ix with
        shrinkable_transitions := svt.shrinkable_transitions.set ix false }).2.included_transitions.getD
        ix false = true ∧
     (complicate ops
      { deleteApplied svt ix with
        shrinkable_transitions := svt.shrinkable_transitions.set ix false }).2.shrinkable_transitions.getD
        ix false = true ∧
     (complicate ops
      { deleteApplied svt ix with
        shrinkable_transitions := svt.shrinkable_transitions.set ix false }).2.last_shrink
        = none) ∧
    current ops (complicate ops
      { deleteApplied svt ix with
        shrinkable_transitions := svt.shrinkable_transitions.set ix false }).2
      = current ops svt := by
  have hlt : ix < svt.included_transitions.length := lt_length_of_getD_true hinc
  have hcomp : complicate ops
      { deleteApplied svt ix with
        shrinkable_transitions := svt.shrinkable_transitions.set ix false }
      = (true,
        { deleteApplied svt ix with
          included_transitions := (svt.included_transitions.set ix false).set ix true
          shrinkable_transitions := (svt.shrinkable_transitions.set ix false).set ix true
          last_shrink := none }) := by
    simp only [complicate, deleteApplied, hsh]
  refine ⟨try_simplify_delete_accept ops svt ix fuel hsh hchk, ?_, ⟨?_, ?_, ?_⟩, ?_⟩
  · rw [hcomp]
  · rw [hcomp]
    show ((svt.included_transitions.set ix false).set ix true).getD ix false = true
    rw [List.set_set]
    exact getD_set_self _ hlt _ _
  · rw [hcomp]
    show ((svt.shrinkable_transitions.set ix false).set ix true).getD ix false = true
    rw [List.set_set]
    exact getD_set_self _ (by omega) _ _
  · rw [hcomp]
  · rw [hcomp]
    have hincl : ((svt.included_transitions.set ix false).set ix true)
        = svt.included_transitions := by
      rw [List.set_set]
      exact set_true_of_getD_true hinc
    simp only [current, get_included_acceptable_transitions]
    rw [hincl]
    rfl

/-- **C6** (witness at `delsvt`: delete slot 1, then complicate restores
`current()` exactly). -/
theorem c6_delete_complicate_round_trip_witness :
    current natOps (complicate natOps
      { deleteApplied delsvt 1 with
        shrinkable_transitions := delsvt.shrinkable_transitions.set 1 false }).2
      = current natOps delsvt :=
  (c6_delete_complicate_round_trip natOps delsvt 1 9 rfl (by decide) (by decide)
    (by decide)).2.2.2

/-! ## C7: the Transition arm of complicate -/

/-- **C7** (confirmed).  When `complicate()` is called with `last_shrink =
Some(Transition ix)`: if the atomic tree at `ix` reports progress on
complication and the re-validation with slot `ix` substituted by its
current value passes, then `acceptable_transitions[ix]` is updated to
`(Accepted, tree.current())`, `last_shrink` is kept unchanged, and `true`
is returned; if progress is reported but the validation fails, the slot's
status becomes `ComplicateRejected`, `last_shrink` is cleared, and `false`
is returned; if no progress is reported, `last_shrink` is cleared and
`false` is returned. -/
theorem c7_complicate_transition_arm [Inhabited τt]
    (ops : Ops State Transition σt τt) (svt : SVT State Transition σt τt)
    (ix : Nat)
    (hls : svt.last_shrink = some (.Transition ix))
    (hlenT : ix < svt.transitions.length)
    (hlenA : ix < svt.acceptable_transitions.length) :
    ((ops.tComplicate (svt.transitions.getD ix default)).1 = true →
      check_acceptable ops (complicateApplied ops svt ix) (some ix) = true →
      complicate ops svt = (true, setAcceptedAt ops (complicateApplied ops svt ix) ix) ∧
      (setAcceptedAt ops (complicateApplied ops svt ix) ix).last_shrink = svt.last_shrink ∧
      (setAcceptedAt ops (complicateApplied ops svt ix) ix).acceptable_transitions[ix]?
        = some (.Accepted,
            ops.tCurrent (ops.tComplicate (svt.transitions.getD ix default)).2)) ∧
    ((ops.tComplicate (svt.transitions.getD ix default)).1 = true →
      check_acceptable ops (complicateApplied ops svt ix) (some ix) = false →
      complicate ops svt = (false,
        { setStatusAt (complicateApplied ops svt ix) ix .ComplicateRejected with
          last_shrink := none }) ∧
      ((setStatusAt (complicateApplied ops svt ix) ix
          .ComplicateRejected).acceptable_transitions[ix]?).map Prod.fst
        = some .ComplicateRejected) ∧
    ((ops.tComplicate (svt.transitions.getD ix default)).1 = false →
      complicate ops svt = (false,
        { complicateApplied ops svt ix with last_shrink := none })) := by
  obtain ⟨ist, iss, lvis, pre, nxt, trs, acc, incl, shr, mix, shk, lsh⟩ := svt
  simp only at hls hlenT hlenA ⊢
  subst hls
  obtain ⟨p, hp⟩ : ∃ p, acc[ix]? = some p := ⟨_, List.getElem?_eq_getElem hlenA⟩
  have hgetD : (trs.set ix (ops.tComplicate (trs.getD ix default)).2).getD ix default
      = (ops.tComplicate (trs.getD ix default)).2 :=
    getD_set_self _ hlenT _ _
  have harm : ∀ svt0 : SVT State Transition σt τt,
      svt0 = ⟨ist, iss, lvis, pre, nxt, trs, acc, incl, shr, mix, shk,
        some (.Transition ix)⟩ →
      complicate ops svt0 =
      (if (ops.tComplicate (svt0.transitions.getD ix default)).1 then
        if check_acceptable ops (complicateApplied ops svt0 ix) (some ix) then
          (true, setAcceptedAt ops (complicateApplied ops svt0 ix) ix)
        else
          (false, { setStatusAt (complicateApplied ops svt0 ix) ix .ComplicateRejected with
            last_shrink := none })
      else (false, { complicateApplied ops svt0 ix with last_shrink := none })) := by
    rintro svt0 rfl
    rfl
  rw [harm _ rfl]
  refine ⟨fun h1 h2 => ⟨?_, ?_, ?_⟩, fun h1 h2 => ⟨?_, ?_⟩, fun h1 => ?_⟩
  · simp only at h1 h2 ⊢
    rw [h1, h2]
    simp
  · rfl
  · show (acc.set ix
        (.Accepted, ops.tCurrent ((trs.set ix
          (ops.tComplicate (trs.getD ix default)).2).getD ix default)))[ix]?
        = _
    rw [hgetD, List.getElem?_set_self (by simpa using hlenA)]
  · simp only at h1 h2 ⊢
    rw [h1, h2]
    simp
  · show ((setStatusAt (complicateApplied ops
        (⟨ist, iss, lvis, pre, nxt, trs, acc, incl, shr, mix, shk,
          some (.Transition ix)⟩ : SVT State Transition σt τt) ix) ix
        .ComplicateRejected).acceptable_transitions[ix]?).map Prod.fst = _
    unfold setStatusAt complicateApplied
    simp only
    rw [show acc[ix]? = some p from hp]
    show ((acc.set ix (.ComplicateRejected, p.2))[ix]?).map Prod.fst = _
    rw [List.getElem?_set_self (by simpa using hlenA)]
    rfl
  · simp only at h1 ⊢
    rw [h1]
    simp

/-- **C7** (witness at `c7svt`, exercising the no-progress branch). -/
theorem c7_complicate_transition_arm_witness :
    complicate natOps c7svt = (false,
      { complicateApplied natOps c7svt 0 with last_shrink := none }) :=
  (c7_complicate_transition_arm natOps c7svt 0 rfl (by decide) (by decide)).2.2 rfl

/-! ## C4: `max_ix = max_size - 1` underflows when the sampled size is 0 -/

/-- **C4** (code bug, evaluation at the failing input).  With the size range
`[0, 0]` the sampled size is `0` and `new_tree` computes
`max_ix = 0usize - 1`, which wraps to `2^64 - 1` (and aborts in a debug
build); the initial shrink plan becomes `DeleteTransition(2^64 - 1)`. -/
theorem c4_new_tree_max_ix_underflows_at_size_zero :
    (new_tree natOps natPre natNxt c4oracle).map (fun s => (s.max_ix, s.shrink))
      = some (USIZE - 1, .DeleteTransition (USIZE - 1)) := by decide

/-! ## C10: `last_shrink` is never `Some(InitialState)` -/

/-- **C10** (confirmed).  In every state reachable from a `new_tree` result
through the public `simplify()`/`complicate()` interface, `last_shrink` is
never `Some(InitialState)`: `new_tree` starts it at `None`, the only
assignments in `try_simplify` are `Some(DeleteTransition _)`,
`Some(Transition _)` and `None` (the InitialState branch never writes it on
success), and `complicate` only writes `None`.  Consequently the
`Some(InitialState)` arm of `complicate` can never run, and a successful
initial-state shrink is never undone. -/
theorem c10_last_shrink_never_initial_state [Inhabited τt]
    (ops : Ops State Transition σt τt)
    (pre : State → Transition → Bool) (nxt : State → Transition → State)
    (oracle : GenOracle State σt τt) (s₀ s : SVT State Transition σt τt)
    (h0 : new_tree ops pre nxt oracle = some s₀)
    (hr : Reachable ops s₀ s) :
    s.last_shrink ≠ some Shrink.InitialState := by
  have hbase : s₀.last_shrink = none := by
    unfold new_tree at h0
    simp only at h0
    cases hgen : genLoop ops pre nxt oracle.draw oracle.sampleSize
        oracle.rejectBudget 0 (ops.sCurrent oracle.initTree) [] [] with
    | none => rw [hgen] at h0; exact Option.noConfusion h0
    | some p =>
      obtain ⟨trs, acc⟩ := p
      rw [hgen] at h0
      injection h0 with h0
      rw [← h0]
  induction hr with
  | refl =>
    rw [hbase]
    intro hcon
    exact Option.noConfusion hcon
  | simplify_step fuel hr hstep ih =>
    exact (simplify_last_shrink_ne_init ops _).2 _ _ _ hstep ih
  | complicate_step hr ih =>
    exact complicate_last_shrink_ne_init ops _ ih

/-- **C10** (witness: the `new_tree` result `delsvt` itself). -/
theorem c10_last_shrink_never_initial_state_witness :
    delsvt.last_shrink ≠ some Shrink.InitialState :=
  c10_last_shrink_never_initial_state natOps natPre natNxt c1oracle delsvt delsvt
    rfl Reachable.refl

/-! ## The fuel-sufficiency and per-call-facts induction -/

/-- Every `try_simplify` call at fuel above `muTotal`, and every `simplify`
call at fuel above `muTotal + 1`, on a state satisfying the representation
invariant, completes and satisfies the per-call facts (with the extra
phase-floor fact for `try_simplify`, whose successes always come from the
phase machine). -/
theorem main_step [Inhabited τt] (ops : Ops State Transition σt τt) :
    ∀ n : Nat,
      (∀ svt : SVT State Transition σt τt, INV svt → muTotal svt < n →
        ∃ b svt', try_simplifyF ops n svt = some (b, svt') ∧
          StepFacts ops svt svt' b ∧
          (accNewlyAccepted svt svt' → 1 ≤ rankOf svt'.shrink)) ∧
      (∀ svt : SVT State Transition σt τt, INV svt → muTotal svt + 1 < n →
        ∃ b svt', simplifyF ops n svt = some (b, svt') ∧
          StepFacts ops svt svt' b) := by
  intro n
  induction n with
  | zero =>
    constructor
    · intro svt _ hmu
      omega
    · intro svt _ hmu
      omega
  | succ n ih =>
    obtain ⟨ihT, ihS⟩ := ih
    constructor
    · intro svt hinv hmu
      rcases hsh : svt.shrink with _ | ix | ix
      · exact main_step_initial ops n svt hsh hinv
      · exact main_step_delete ops n ihT svt ix hsh hinv hmu
      · exact main_step_transition ops n ihT ihS svt ix hsh hinv hmu
    · intro svt hinv hmu
      exact main_step_simplify ops n ihT svt hinv hmu

/-- The always-sufficient-fuel step `stepF` agrees with the fuelled
`simplify` (which completes), and satisfies the per-call facts. -/
theorem stepF_spec [Inhabited τt] (ops : Ops State Transition σt τt)
    (s : SVT State Transition σt τt) (hs : INV s) :
    simplifyF ops (muTotal s + 2) s = some (stepF ops s) ∧
    StepFacts ops s (stepF ops s).2 (stepF ops s).1 := by
  obtain ⟨b, s', heq, hf⟩ := (main_step ops (muTotal s + 2)).2 s hs (by omega)
  have hst : stepF ops s = (b, s') := by
    unfold stepF
    rw [heq]
    rfl
  rw [hst]
  exact ⟨heq, hf⟩

/-- The representation invariant holds at every point of a `simplify` run. -/
theorem runState_inv [Inhabited τt] (ops : Ops State Transition σt τt)
    (s₀ : SVT State Transition σt τt) (hinv : INV s₀) :
    ∀ k, INV (runState ops s₀ k) := by
  intro k
  induction k with
  | zero => exact hinv
  | succ k ih => exact (stepF_spec ops (runState ops s₀ k) ih).2.inv

/-- The per-call facts hold at every step of a `simplify` run. -/
theorem run_step_facts [Inhabited τt] (ops : Ops State Transition σt τt)
    (s₀ : SVT State Transition σt τt) (hinv : INV s₀) (k : Nat) :
    StepFacts ops (runState ops s₀ k) (runState ops s₀ (k + 1))
      (runBool ops s₀ k) :=
  (stepF_spec ops (runState ops s₀ k) (runState_inv ops s₀ hinv k)).2

/-- **C9**: for every value tree (any state satisfying the representation
invariant), shrinking terminates.  Each `simplify()` call completes at fuel
`muTotal + 2` — the mutual recursion of `try_simplify`/`simplify` does not
diverge — and, given rank functions under which each atomic tree's
`simplify` reports progress only finitely often, there is a finite `K`
after which every subsequent `simplify()` call returns `false`. -/
theorem c9_shrink_termination [Inhabited τt] (ops : Ops State Transition σt τt)
    (s₀ : SVT State Transition σt τt)
    (srank : σt → Nat) (trank : τt → Nat)
    (hr : RankedOps ops srank trank) (hinv : INV s₀) :
    (∀ k, simplifyF ops (muTotal (runState ops s₀ k) + 2) (runState ops s₀ k)
      ≠ none) ∧
    ∃ K, ∀ j, K ≤ j → runBool ops s₀ j = false := by
  constructor
  · intro k
    rw [(stepF_spec ops (runState ops s₀ k) (runState_inv ops s₀ hinv k)).1]
    exact fun hcon => Option.noConfusion hcon
  · have hfacts := run_step_facts ops s₀ hinv
    have hmono : ∀ k, Mtot srank trank (runState ops s₀ (k + 1))
        ≤ Mtot srank trank (runState ops s₀ k) :=
      fun k => ((hfacts k).m_dec srank trank hr).1
    have hstrict : ∀ k, runBool ops s₀ k = true →
        Mtot srank trank (runState ops s₀ (k + 1))
          < Mtot srank trank (runState ops s₀ k) :=
      fun k hb => ((hfacts k).m_dec srank trank hr).2 hb
    have hmono2 : ∀ a b, a ≤ b → Mtot srank trank (runState ops s₀ b)
        ≤ Mtot srank trank (runState ops s₀ a) := by
      intro a b hab
      induction b with
      | zero =>
        have ha0 : a = 0 := by omega
        subst ha0
        exact Nat.le_refl _
      | succ b ihb =>
        rcases Nat.lt_or_ge a (b + 1) with h | h
        · exact Nat.le_trans (hmono b) (ihb (by omega))
        · have hab2 : a = b + 1 := by omega
          subst hab2
          exact Nat.le_refl _
    have main : ∀ d k, Mtot srank trank (runState ops s₀ k) < d →
        ∃ K, ∀ j, K ≤ j → runBool ops s₀ j = false := by
      intro d
      induction d with
      | zero =>
        intro k hk
        omega
      | succ d ih =>
        intro k hk
        by_cases hall : ∀ j, k ≤ j → runBool ops s₀ j = false
        · exact ⟨k, fun j hj => hall j hj⟩
        · push_neg at hall
          obtain ⟨j, hjk, hjt⟩ := hall
          have hjt2 : runBool ops s₀ j = true := by
            revert hjt
            cases runBool ops s₀ j <;> simp
          have h1 := hstrict j hjt2
          have h2 := hmono2 k j hjk
          exact ih (j + 1) (by omega)
    exact main (Mtot srank trank s₀ + 1) 0 (Nat.lt_succ_self _)

/-- **C9** (witness: the concrete two-transition tree `delsvt`, with the
identity ranks on the `Nat` atomic trees). -/
theorem c9_shrink_termination_witness :
    (∀ k, simplifyF natOps (muTotal (runState natOps delsvt k) + 2)
      (runState natOps delsvt k) ≠ none) ∧
    ∃ K, ∀ j, K ≤ j → runBool natOps delsvt j = false :=
  c9_shrink_termination natOps delsvt natSRank natTRank
    { sSimp_le := fun t => Nat.sub_le t 1
      sSimp_lt := fun t ht => Nat.sub_lt (of_decide_eq_true ht) Nat.one_pos
      tSimp_le := fun t => Nat.le_refl t
      tSimp_lt := fun t ht => Bool.noConfusion (show false = true from ht) }
    (by decide)

/-- **C8**: across a run of repeated `simplify()` calls (no interleaved
`complicate`), the applied shrink operations are phase-ordered: from any
per-transition Simplify step on, no Delete step occurs; from any
InitialState step on, neither Delete nor Simplify steps occur; and a
recovery-probe success can only happen after an InitialState attempt. -/
theorem c8_phase_ordering [Inhabited τt] (ops : Ops State Transition σt τt)
    (s₀ : SVT State Transition σt τt) (hinv : INV s₀)
    (hiss : s₀.is_initial_state_shrinkable = true) :
    (∀ j k, SimpStep ops s₀ j → j ≤ k → ¬ DelStep ops s₀ k) ∧
    (∀ j k, InitStep ops s₀ j → j ≤ k →
      ¬ DelStep ops s₀ k ∧ ¬ SimpStep ops s₀ k) ∧
    (∀ k, ProbeStep ops s₀ k → ∃ j, j < k ∧ InitAttempt ops s₀ j) := by
  have hfacts := run_step_facts ops s₀ hinv
  have hrankmono : ∀ a b, a ≤ b →
      rankOf (runState ops s₀ a).shrink ≤ rankOf (runState ops s₀ b).shrink := by
    intro a b hab
    induction b with
    | zero =>
      have ha0 : a = 0 := by omega
      subst ha0
      exact Nat.le_refl _
    | succ b ihb =>
      rcases Nat.lt_or_ge a (b + 1) with h | h
      · exact Nat.le_trans (ihb (by omega)) (hfacts b).rank_mono
      · have hab2 : a = b + 1 := by omega
        subst hab2
        exact Nat.le_refl _
  have hsimp_pre : ∀ k, SimpStep ops s₀ k →
      rankOf (runState ops s₀ k).shrink ≤ 1 := by
    rintro k ⟨_, hcs, hacc⟩
    rcases (hfacts k).acc_entry hacc with h | h
    · exact h
    · rw [hcs] at h
      exact Bool.noConfusion h
  have hsimp_post : ∀ j, SimpStep ops s₀ j →
      1 ≤ rankOf (runState ops s₀ (j + 1)).shrink := by
    rintro j ⟨_, hcs, hacc⟩
    rcases (hfacts j).acc_post hacc with h | ⟨hcs2, _⟩
    · exact h
    · rw [hcs] at hcs2
      exact Bool.noConfusion hcs2
  have hdel_rank : ∀ k, DelStep ops s₀ k →
      rankOf (runState ops s₀ k).shrink = 0 :=
    fun k hd => ((hfacts k).incl_change hd.2).1
  refine ⟨?_, ?_, ?_⟩
  · intro j k hsimp hjk hdel
    by_cases hjk2 : j = k
    · subst hjk2
      exact absurd hsimp.2.2 (accNew_not_of_eq ((hfacts j).incl_change hdel.2).2.1)
    · have h1 := hsimp_post j hsimp
      have h2 := hrankmono (j + 1) k (by omega)
      have h3 := hdel_rank k hdel
      omega
  · intro j k hij hjk
    have hinit_post : 2 ≤ rankOf (runState ops s₀ (j + 1)).shrink := by
      rw [(hfacts j).lvis_change hij.2]
      exact Nat.le_refl 2
    constructor
    · intro hdel
      by_cases hjk2 : j = k
      · subst hjk2
        exact absurd ((hfacts j).incl_change hdel.2).2.2 hij.2
      · have h2 := hrankmono (j + 1) k (by omega)
        have h3 := hdel_rank k hdel
        omega
    · intro hsimp
      by_cases hjk2 : j = k
      · subst hjk2
        exact absurd hsimp.2.2 ((hfacts j).lvis_nacc hij.2)
      · have h2 := hrankmono (j + 1) k (by omega)
        have h3 := hsimp_pre k hsimp
        omega
  · rintro k ⟨_, hcs⟩
    have hkiss : (runState ops s₀ k).is_initial_state_shrinkable = false :=
      (can_simplify_false_elim _ hcs).1
    have flip : ∀ m, (runState ops s₀ m).is_initial_state_shrinkable = false →
        ∃ j, j < m ∧ (runState ops s₀ j).is_initial_state_shrinkable = true ∧
          (runState ops s₀ (j + 1)).is_initial_state_shrinkable = false := by
      intro m
      induction m with
      | zero =>
        intro h0
        have h1 : s₀.is_initial_state_shrinkable = false := h0
        rw [hiss] at h1
        exact Bool.noConfusion h1
      | succ m ihm =>
        intro hm1
        cases hb : (runState ops s₀ m).is_initial_state_shrinkable with
        | true => exact ⟨m, Nat.lt_succ_self m, hb, hm1⟩
        | false =>
          obtain ⟨j, hj1, hj2, hj3⟩ := ihm hb
          exact ⟨j, by omega, hj2, hj3⟩
    obtain ⟨j, hj1, hj2, hj3⟩ := flip k hkiss
    exact ⟨j, hj1, Or.inr ⟨hj2, hj3⟩⟩

/-- **C8** (witness: the concrete two-transition tree `delsvt`, whose
initial state is still shrinkable). -/
theorem c8_phase_ordering_witness :
    (∀ j k, SimpStep natOps delsvt j → j ≤ k → ¬ DelStep natOps delsvt k) ∧
    (∀ j k, InitStep natOps delsvt j → j ≤ k →
      ¬ DelStep natOps delsvt k ∧ ¬ SimpStep natOps delsvt k) ∧
    (∀ k, ProbeStep natOps delsvt k → ∃ j, j < k ∧ InitAttempt natOps delsvt j) :=
  c8_phase_ordering natOps delsvt (by decide) (by decide)

end PropTestSM
